import Mathlib

/-!
Pioneer: the Lua `Timer` facility (`src/LuaTimer.cpp`)

A shallow embedding of `LuaTimer::Tick`, `_finish_timer_create`,
`l_timer_call_at` and `l_timer_call_every`, together with the part of the Lua
C API these functions rely on.

Modelling conventions.

* Lua numbers are C `double`s (IEEE 754 binary64): NaN, the two infinities, or a finite
  value.  Comparisons with NaN are false; a sum is rounded to the nearest double, ties to
  even.  The sign of zero is not represented (it affects no comparison or sum here).
* The registry slot `PiTimerCallbacks` is `nil` or a table whose keys are the
  positive integers chosen by `_finish_timer_create`.
* Every table made by `lua_newtable` is a reference object; `allocs` counts the
  tables created so far and serves as the identity of the next one.
* A callback is a Lua closure.  What it does when called is given by a
  `Script`: the requests it sends to `Timer:CallAt` / `Timer:CallEvery` and the
  value it returns.  A callback that raises an uncaught Lua error is not
  represented (the error would unwind through `lua_call` and leave `Tick`).
* `lua_next` enumerates the keys of the table in an order fixed by the table's
  internal layout.  The sequence of keys it yields during one `Tick` is the
  parameter `visits`; a key whose value is `nil` when its turn comes is never
  yielded, so such a visit does nothing.  When a callback registers a timer
  during the traversal the table may be rehashed, and `lua_next` may then leave
  out keys or yield a key again, so `visits` is not tied to the keys in use.
-/

namespace LuaTimer

/-! ## The data model and the operations of `LuaTimer.cpp` -/

/-- A Lua number, that is a C `double` (IEEE 754 binary64): not-a-number, an infinity
(negative or positive), or a finite value, given by the rational it denotes.  Every double
is one of these values; `fin q` is also formed for rationals `q` that are no double, and
what is proved for all values holds for the doubles among them.  Sums are always doubles
(`roundDouble`). -/
inductive LuaNumber
  | nan
  | inf (negative : Bool)
  | fin (q : ℚ)
  deriving DecidableEq

/-- The C comparison `a <= b` on doubles: false as soon as one side is NaN. -/
def LuaNumber.le : LuaNumber → LuaNumber → Bool
  | .fin a, .fin b => decide (a ≤ b)
  | .inf true, .fin _ => true
  | .inf true, .inf _ => true
  | .fin _, .inf false => true
  | .inf false, .inf false => true
  | _, _ => false

/-- The C comparison `a < b` on doubles: false as soon as one side is NaN. -/
def LuaNumber.lt : LuaNumber → LuaNumber → Bool
  | .fin a, .fin b => decide (a < b)
  | .inf true, .fin _ => true
  | .inf true, .inf false => true
  | .fin _, .inf false => true
  | _, _ => false

instance : LE LuaNumber := ⟨fun a b => LuaNumber.le a b = true⟩

instance : LT LuaNumber := ⟨fun a b => LuaNumber.lt a b = true⟩

instance (a b : LuaNumber) : Decidable (a ≤ b) :=
  inferInstanceAs (Decidable (LuaNumber.le a b = true))

instance (a b : LuaNumber) : Decidable (a < b) :=
  inferInstanceAs (Decidable (LuaNumber.lt a b = true))

instance (n : Nat) : OfNat LuaNumber n := ⟨.fin n⟩

/-- Rounding to the nearest integer, ties to the even one. -/
def roundHalfEven (x : ℚ) : ℤ :=
  if x - ⌊x⌋ < 1 / 2 then ⌊x⌋
  else if 1 / 2 < x - ⌊x⌋ then ⌊x⌋ + 1
  else if ⌊x⌋ % 2 = 0 then ⌊x⌋ else ⌊x⌋ + 1

/-- Rounding of an exact result to binary64, round-to-nearest-even: 53 significant bits
(spacing `2 ^ (e - 52)` for `2 ^ e ≤ |x| < 2 ^ (e + 1)`), exponents from -1022 (below
that, the subnormal spacing `2 ^ -1074`) to 1023, overflow to an infinity. -/
def roundDouble (x : ℚ) : LuaNumber :=
  if x = 0 then .fin 0
  else if (2 : ℚ) ^ (1024 : ℤ) ≤
      |(roundHalfEven (x / (2 : ℚ) ^ (max (Int.log 2 |x|) (-1022) - 52)) : ℚ)
        * (2 : ℚ) ^ (max (Int.log 2 |x|) (-1022) - 52)| then .inf (decide (x < 0))
  else .fin ((roundHalfEven (x / (2 : ℚ) ^ (max (Int.log 2 |x|) (-1022) - 52)) : ℚ)
        * (2 : ℚ) ^ (max (Int.log 2 |x|) (-1022) - 52))

/-- The C sum `a + b` of two doubles. -/
def LuaNumber.add : LuaNumber → LuaNumber → LuaNumber
  | .fin a, .fin b => roundDouble (a + b)
  | .nan, _ => .nan
  | _, .nan => .nan
  | .inf s, .inf t => if s = t then .inf s else .nan
  | .inf s, .fin _ => .inf s
  | .fin _, .inf t => .inf t

instance : Add LuaNumber := ⟨LuaNumber.add⟩

/-- Lua function values are reference objects; a callback is named by its identity. -/
abbrev Callback := Nat

/-- The Lua values a callback can leave as its single result. -/
inductive LuaValue
  | nil
  | boolean (b : Bool)
  | number (n : LuaNumber)
  | string (s : String)
  | table (ref : Nat)
  | func (f : Callback)
  deriving DecidableEq

/-- Lua C API `lua_toboolean`: false for `nil` and `false`, true for every other value. -/
def lua_toboolean : LuaValue → Bool
  | .nil => false
  | .boolean b => b
  | _ => true

/-- One element of `PiTimerCallbacks`: the table `{at=…, every=…, callback=…}`.
`id` is the identity of the table object, `every = none` is an absent field. -/
structure TimerEntry where
  id : Nat
  at_ : LuaNumber
  every : Option LuaNumber
  callback : Callback
  deriving DecidableEq

/-- The Lua table stored in the registry, as a finite map from integer keys. -/
abbrev Table := List (Nat × TimerEntry)

/-- Reading `t[k]`; `none` is `nil`. -/
def Table.gettable (t : Table) (k : Nat) : Option TimerEntry :=
  List.lookup k t

/-- Lua C API `lua_settable`: `t[k] = v`, where storing `nil` clears the field. -/
def Table.settable (t : Table) (k : Nat) (v : Option TimerEntry) : Table :=
  match v with
  | none => t.filter (fun p => p.1 != k)
  | some e => (k, e) :: t.filter (fun p => p.1 != k)

/-- A border of a table, as in the Lua 5.1 manual: `t[n]` is not `nil` (or `n = 0`)
and `t[n+1]` is `nil`. -/
def IsBorder (t : Table) (n : Nat) : Prop :=
  (n = 0 ∨ (t.gettable n).isSome = true) ∧ t.gettable (n + 1) = none

/-- Lua C API `lua_objlen` on tables: the manual promises some border, not a particular one. -/
structure ObjLen where
  len : Table → Nat
  border : ∀ t, IsBorder t (len t)

/-- A request a running callback sends to the `Timer` object. -/
inductive Request
  | CallAt (time : LuaNumber) (fn : Callback)
  | CallEvery (interval : LuaNumber) (fn : Callback)
  deriving DecidableEq

/-- What one invocation of a callback does: its `Timer` requests, in order, and its result
(`LuaValue.nil` when it returns nothing, since `lua_call` asks for one result). -/
structure Reply where
  regs : List Request
  ret : LuaValue

/-- Behaviour of the scripts: `script n f` is what callback `f` does when it is the
`n`-th callback invocation since start-up. -/
abbrev Script := Nat → Callback → Reply

/-- The state the timer code reads and writes. -/
structure LuaState where
  gameTime : LuaNumber
  PiTimerCallbacks : Option Table
  allocs : Nat
  calls : Nat
  deriving DecidableEq

/-- The schedule: the registry table, empty when the registry slot is `nil`. -/
def LuaState.timers (s : LuaState) : Table :=
  s.PiTimerCallbacks.getD []

/-- The entry stored under key `k` of the schedule. -/
def LuaState.entry (s : LuaState) (k : Nat) : Option TimerEntry :=
  s.timers.gettable k

/-- `_finish_timer_create` (lines 94-114).  `e` is the table under construction with its
`callback` field (lines 96-98, argument 3 of the Lua call) filled in.  The function fetches
`PiTimerCallbacks`, creating the table when the registry slot is `nil` (lines 100-106), and
stores the entry under key `lua_objlen + 1` (lines 108-111). -/
def _finish_timer_create (L : ObjLen) (s : LuaState) (e : TimerEntry) : LuaState :=
  match s.PiTimerCallbacks with
  | none =>
    let t : Table := []
    { s with allocs := s.allocs + 1, PiTimerCallbacks := some (t.settable (L.len t + 1) (some e)) }
  | some t =>
    { s with PiTimerCallbacks := some (t.settable (L.len t + 1) (some e)) }

/-- `l_timer_call_at` (`Timer:CallAt(time, function)`, lines 147-166), for a numeric first
and a function second argument.  `luaL_error` leaves by a long jump before anything is
written, so on failure the state is the one passed in. -/
def l_timer_call_at (L : ObjLen) (s : LuaState) (time : LuaNumber) (fn : Callback) :
    Except String Unit × LuaState :=
  if time ≤ s.gameTime then
    (.error "Specified time is in the past", s)
  else
    let e : TimerEntry := { id := s.allocs, at_ := time, every := none, callback := fn }
    (.ok (), _finish_timer_create L { s with allocs := s.allocs + 1 } e)

/-- `l_timer_call_every` (`Timer:CallEvery(interval, function)`, lines 208-228), for a
numeric first and a function second argument. -/
def l_timer_call_every (L : ObjLen) (s : LuaState) (every : LuaNumber) (fn : Callback) :
    Except String Unit × LuaState :=
  if every ≤ 0 then
    (.error "Specified interval must be greater than zero", s)
  else
    let e : TimerEntry :=
      { id := s.allocs, at_ := s.gameTime + every, every := some every, callback := fn }
    (.ok (), _finish_timer_create L { s with allocs := s.allocs + 1 } e)

/-- The requests of a running callback, served in order.  A rejected request raises a Lua
error inside the callback and changes nothing; the callback is taken to go on (it called
through `pcall`), an uncaught error being outside the model. -/
def serve (L : ObjLen) : List Request → LuaState → LuaState
  | [], s => s
  | .CallAt time fn :: rs, s => serve L rs (l_timer_call_at L s time fn).2
  | .CallEvery every fn :: rs, s => serve L rs (l_timer_call_every L s every fn).2

/-- The effect of `lua_call(l, 0, 1)` on callback `fn` (line 31): the state once the
callback has run and the single result it leaves on the stack. -/
def lua_call (script : Script) (L : ObjLen) (s : LuaState) (fn : Callback) :
    LuaState × LuaValue :=
  let r := script s.calls fn
  (serve L r.regs { s with calls := s.calls + 1 }, r.ret)

/-- A callback invocation made by `Tick`: the key and entry visited and the value returned. -/
structure Fired where
  key : Nat
  timer : TimerEntry
  ret : LuaValue
  deriving DecidableEq

/-- Storing a value under key `k` of `PiTimerCallbacks`. -/
def LuaState.settimer (s : LuaState) (k : Nat) (v : Option TimerEntry) : LuaState :=
  { s with PiTimerCallbacks := some (s.timers.settable k v) }

/-- The body of the `while (lua_next(l, -2))` loop of `Tick` (lines 23-51) for key `k`.
`lua_next` yields only keys whose value is not `nil` (first case).  For a due entry
(line 29) the callback runs (lines 30-33); then the key is cleared when the entry has no
`every` field or the result is true (lines 36-41), and otherwise the `at` field of the
entry is set to `Pi::GetGameTime() + every` (lines 44-47). -/
def tickEntry (script : Script) (L : ObjLen) (now : LuaNumber)
    (acc : LuaState × List Fired)
    (k : Nat) : LuaState × List Fired :=
  match acc.1.entry k with
  | none => acc
  | some e =>
    if e.at_ ≤ now then
      let r := lua_call script L acc.1 e.callback
      let cancel := lua_toboolean r.2
      let log := acc.2 ++ [{ key := k, timer := e, ret := r.2 }]
      match e.every with
      | none => (r.1.settimer k none, log)
      | some every =>
        if cancel then (r.1.settimer k none, log)
        else (r.1.settimer k (some { e with at_ := r.1.gameTime + every }), log)
    else acc

/-- `LuaTimer::Tick` (lines 5-56): returns at once when `PiTimerCallbacks` is `nil`
(lines 11-16); otherwise reads the game time once (line 19) and runs the loop body on the
keys `lua_next` yields, `visits`.  The second component lists the callback invocations in
the order they were made. -/
def Tick (script : Script) (L : ObjLen) (visits : List Nat) (s : LuaState) :
    LuaState × List Fired :=
  match s.PiTimerCallbacks with
  | none => (s, [])
  | some _ => visits.foldl (tickEntry script L s.gameTime) (s, [])

/-! ## Sequences of operations -/

/-- What the host and the scripts can do between and during frames: run `Tick` (with the
order in which `lua_next` yields the keys), call `Timer:CallAt` or `Timer:CallEvery`, or let
the game clock take a new value (the clock belongs to the game loop, outside this file). -/
inductive Op
  | Tick (visits : List Nat)
  | CallAt (time : LuaNumber) (fn : Callback)
  | CallEvery (every : LuaNumber) (fn : Callback)
  | SetGameTime (t : LuaNumber)

/-- One operation: the state afterwards and the callback invocations it made. -/
def step (script : Script) (L : ObjLen) (s : LuaState) : Op → LuaState × List Fired
  | .Tick visits => Tick script L visits s
  | .CallAt time fn => ((l_timer_call_at L s time fn).2, [])
  | .CallEvery every fn => ((l_timer_call_every L s every fn).2, [])
  | .SetGameTime t => ({ s with gameTime := t }, [])

/-- A sequence of operations: the final state and all callback invocations, in order. -/
def run (script : Script) (L : ObjLen) : List Op → LuaState → LuaState × List Fired
  | [], s => (s, [])
  | op :: ops, s =>
    let r := step script L s op
    let r2 := run script L ops r.1
    (r2.1, r.2 ++ r2.2)

/-- The states the program can be in: started with no table, then any operations. -/
inductive Reachable (script : Script) (L : ObjLen) : LuaState → Prop
  | init (t : LuaNumber) : Reachable script L ⟨t, none, 0, 0⟩
  | step (s : LuaState) (op : Op) : Reachable script L s → Reachable script L (step script L s op).1

/-! ## Predicates used in the statements and in the loop invariant -/

/-- Object identities are sound: every stored entry was allocated earlier, and no two keys
hold the same table object. -/
def WF (s : LuaState) : Prop :=
  (∀ k e, s.entry k = some e → e.id < s.allocs) ∧
  (∀ k k2 e e2, s.entry k = some e → s.entry k2 = some e2 → e.id = e2.id → k = k2)

/-- Every repeat interval stored in the schedule is strictly positive. -/
def PosIntervals (s : LuaState) : Prop :=
  ∀ k e p, s.entry k = some e → e.every = some p → 0 < p

/-- The table object `i` exists and is stored nowhere in the schedule. -/
def Absent (i : Nat) (s : LuaState) : Prop :=
  i < s.allocs ∧ ∀ k x, s.entry k = some x → x.id ≠ i

/-- The invocations of the table object `i` in a log. -/
def firings (i : Nat) (log : List Fired) : List Fired :=
  log.filter (fun x => decide (x.timer.id = i))

/-- An entry `e` found in `s2` that was created after state `s`: its table object is
younger than `s`, and it is either what `Timer:CallAt` stores (no interval, a due time that
passed the test of line 153) or what `Timer:CallEvery` stores (an interval `i` that passed
the test of line 214, due at the sum of the game time and `i`). -/
def NewIn (s s2 : LuaState) (e : TimerEntry) : Prop :=
  s.allocs ≤ e.id ∧ e.id < s2.allocs ∧
    ((e.every = none ∧ ¬ e.at_ ≤ s.gameTime) ∨
     (∃ i, e.every = some i ∧ ¬ i ≤ 0 ∧ e.at_ = s.gameTime + i))

/-- State `s2` is `s` with further entries registered: the clock is the same, nothing that
was stored has changed, and whatever else is stored is new. -/
structure Grows (s s2 : LuaState) : Prop where
  time : s2.gameTime = s.gameTime
  allocs : s.allocs ≤ s2.allocs
  keep : ∀ k e, s.entry k = some e → s2.entry k = some e
  fresh : ∀ k e, s2.entry k = some e → s.entry k = some e ∨ NewIn s s2 e
  wf : WF s → WF s2

/-- The three ways the loop body can go for key `j` from state `s` with log `log`. -/
inductive Visit (script : Script) (now : LuaNumber) (s : LuaState) (log : List Fired)
    (j : Nat) :
    LuaState × List Fired → Prop
  | skip : (s.entry j = none ∨ ∃ e, s.entry j = some e ∧ ¬ e.at_ ≤ now) →
      Visit script now s log j (s, log)
  | remove (e : TimerEntry) (s1 : LuaState) (r : LuaValue) :
      s.entry j = some e → e.at_ ≤ now → Grows s s1 →
      r = (script s.calls e.callback).ret →
      (e.every = none ∨ lua_toboolean r = true) →
      Visit script now s log j (s1.settimer j none, log ++ [⟨j, e, r⟩])
  | rearm (e : TimerEntry) (s1 : LuaState) (r : LuaValue) (p : LuaNumber) :
      s.entry j = some e → e.at_ ≤ now → Grows s s1 →
      r = (script s.calls e.callback).ret →
      e.every = some p → lua_toboolean r = false →
      Visit script now s log j
        (s1.settimer j (some { e with at_ := s1.gameTime + p }), log ++ [⟨j, e, r⟩])

/-- Entry `e` under key `k` descends from an entry `e0` that `s0` held under the same key:
the same table object, interval and callback, with the due time either untouched or
rearmed from the game time of `s0`. -/
def Kept (s0 : LuaState) (k : Nat) (e : TimerEntry) : Prop :=
  ∃ e0, s0.entry k = some e0 ∧ e0.id = e.id ∧ e0.every = e.every ∧ e0.callback = e.callback ∧
    (e.at_ = e0.at_ ∨ (e0.at_ ≤ s0.gameTime ∧ ∃ p, e.every = some p ∧ e.at_ = s0.gameTime + p))

/-- The invoked entry `r.timer` descends from an entry that `s0` held, already due, under
the key it is invoked from. -/
def FromStart (s0 : LuaState) (r : Fired) : Prop :=
  ∃ e0, s0.entry r.key = some e0 ∧ e0.at_ ≤ s0.gameTime ∧ e0.id = r.timer.id ∧
    e0.every = r.timer.every ∧ e0.callback = r.timer.callback

/-- The invoked entry `r.timer` was created after `s0` by `Timer:CallEvery`: a younger table
object with an interval `i`, due at the sum of the game time and `i`. -/
def FromEvery (s0 : LuaState) (r : Fired) : Prop :=
  s0.allocs ≤ r.timer.id ∧
    ∃ i, r.timer.every = some i ∧ ¬ i ≤ 0 ∧ r.timer.at_ = s0.gameTime + i

/-- The loop invariant of `Tick` started in `s0`. -/
structure TickInv (script : Script) (s0 : LuaState) (acc : LuaState × List Fired) : Prop where
  time : acc.1.gameTime = s0.gameTime
  allocs : s0.allocs ≤ acc.1.allocs
  origin : ∀ k e, acc.1.entry k = some e → Kept s0 k e ∨ NewIn s0 acc.1 e
  pending : ∀ k e, s0.entry k = some e → ¬ e.at_ ≤ s0.gameTime → acc.1.entry k = some e
  fired : ∀ r ∈ acc.2, r.timer.at_ ≤ s0.gameTime ∧
    (∃ n, r.ret = (script n r.timer.callback).ret) ∧
    (FromStart s0 r ∨ FromEvery s0 r)
  keys : ∀ r ∈ acc.2, ∀ e, s0.entry r.key = some e → e.at_ ≤ s0.gameTime
  wf : WF s0 → WF acc.1

/-- Entry `e` is stored under `k` and has not been invoked. -/
def Pend (k : Nat) (e : TimerEntry) (acc : LuaState × List Fired) : Prop :=
  acc.1.entry k = some e ∧ ∀ r ∈ acc.2, r.timer.id ≠ e.id

/-- Entry `e` was invoked exactly once, from key `k`, and was then removed (no interval, or
a true result) or rearmed to `now + p` (interval `p`, false result). -/
def Done (now : LuaNumber) (k : Nat) (e : TimerEntry) (acc : LuaState × List Fired) :
    Prop :=
  ∃ r, firings e.id acc.2 = [⟨k, e, r⟩] ∧
    (((e.every = none ∨ lua_toboolean r = true) ∧ Absent e.id acc.1) ∨
     (∃ p, e.every = some p ∧ lua_toboolean r = false ∧
        acc.1.entry k = some { e with at_ := now + p }))

/-- Entry `e`, stored under `k` and due when the `Tick` at game time `now` began, has been
invoked one or more times, always from key `k`: first as `e` itself, after that as `e` with
its due time set to the sum of `now` and its interval.  Every invocation but the last
returned a false value.  After the last one the entry was removed (no interval, or a true
result) or is stored under `k` with that new due time (false result). -/
def Fate (now : LuaNumber) (k : Nat) (e : TimerEntry) (acc : LuaState × List Fired) :
    Prop :=
  ∃ rs r, firings e.id acc.2 = rs ++ [r] ∧
    (∃ r0, (rs ++ [r]).head? = some ⟨k, e, r0⟩) ∧
    (∀ x ∈ rs ++ [r], x.key = k ∧
      (x.timer = e ∨ ∃ p, e.every = some p ∧ x.timer = { e with at_ := now + p })) ∧
    (∀ x ∈ rs, lua_toboolean x.ret = false) ∧
    (((e.every = none ∨ lua_toboolean r.ret = true) ∧ Absent e.id acc.1) ∨
     (∃ p, e.every = some p ∧ lua_toboolean r.ret = false ∧
        acc.1.entry k = some { e with at_ := now + p }))

/-- After a `Tick` at game time `now`, what is stored is settled: an entry is not due, or it
is a repeating entry due at the sum of `now` and its interval, or it sits unchanged under a
key listed in `rest` (the keys the traversal has not yielded yet). -/
def Settled (s0 : LuaState) (rest : List Nat) (s : LuaState) : Prop :=
  ∀ k e, s.entry k = some e →
    ¬ e.at_ ≤ s0.gameTime ∨ (∃ p, e.every = some p ∧ e.at_ = s0.gameTime + p) ∨
    (k ∈ rest ∧ s0.entry k = some e)

/-- The invocations recorded so far are of table objects that exist, and a table object
created during the `Tick` is stored, as long as it is stored, exactly as it was invoked. -/
def Stable (s0 : LuaState) (acc : LuaState × List Fired) : Prop :=
  (∀ r ∈ acc.2, r.timer.id < acc.1.allocs) ∧
  ∀ r ∈ acc.2, s0.allocs ≤ r.timer.id →
    ∀ k e, acc.1.entry k = some e → e.id = r.timer.id → e = r.timer

/-- The largest key in use (0 for the empty table). -/
def maxKey (t : Table) : Nat :=
  (t.map (fun p => p.1)).foldr max 0

/-- An admissible `lua_objlen`: the largest key in use, which is a border of every table. -/
def maxKeyLen : ObjLen where
  len := maxKey
  border := by
    intro t
    have hle : ∀ (u : Table) (k : Nat), (u.gettable k).isSome = true → k ≤ maxKey u := by
      intro u
      induction u with
      | nil => intro k h; simp [Table.gettable, List.lookup] at h
      | cons q u ih =>
        intro k h
        obtain ⟨a, b⟩ := q
        have hm : maxKey ((a, b) :: u) = max a (maxKey u) := rfl
        rw [hm]
        by_cases hk : k = a
        · rw [hk]; exact le_max_left _ _
        · have hka : (k == a) = false := by simpa using hk
          unfold Table.gettable at h ih
          simp only [List.lookup, hka] at h
          exact le_trans (ih k h) (le_max_right _ _)
    have hmax : ∀ u : Table, maxKey u = 0 ∨ (u.gettable (maxKey u)).isSome = true := by
      intro u
      induction u with
      | nil => exact Or.inl rfl
      | cons q u ih =>
        obtain ⟨a, b⟩ := q
        have hm : maxKey ((a, b) :: u) = max a (maxKey u) := rfl
        rw [hm]
        by_cases hle2 : maxKey u ≤ a
        · rw [max_eq_left hle2]
          exact Or.inr (by simp [Table.gettable, List.lookup])
        · have hlt : a < maxKey u := Nat.lt_of_not_le hle2
          rw [max_eq_right (le_of_lt hlt)]
          have hne : (maxKey u == a) = false := by simpa using (ne_of_gt hlt)
          rcases ih with h0 | h1
          · omega
          · right
            unfold Table.gettable at h1 ⊢
            simpa only [List.lookup, hne] using h1
    refine ⟨hmax t, ?_⟩
    cases h : t.gettable (maxKey t + 1) with
    | none => rfl
    | some e =>
      have := hle t (maxKey t + 1) (by simp [h])
      omega

/-- Another admissible `lua_objlen`: 0 when key 1 is free, otherwise the largest key in use.
(For a table whose keys all sit in the hash part, `unbound_search` of Lua 5.1 probes key 1
first and answers 0 when it holds `nil`.) -/
def probeLen : ObjLen where
  len := fun t => if t.gettable 1 = none then 0 else maxKey t
  border := by
    intro t
    by_cases h : t.gettable 1 = none
    · simp only [h, if_true]
      exact ⟨Or.inl rfl, h⟩
    · simp only [h, if_false]
      exact maxKeyLen.border t

end LuaTimer

/-!
Pioneer: helpers of `src/utils.cpp`

`timedate::operator=(int)` (calendar decoding of a game-time stamp) and `pi_strcasestr`.

* `int` is a 32-bit signed integer.  The functions are written over `ℤ` with the C
  operators: `/` is `Int.tdiv` and `%` is `Int.tmod` (quotient truncated toward zero,
  remainder with the sign of the dividend).  For a 32-bit stamp no intermediate value
  leaves the 32-bit range, so no wrap-around is written out.
* A read `days[leap][month]` with `month ≥ 12` is outside the row; the decoding then has no
  result (`none`).
* A C string is the list of its characters before the terminating NUL, each character
  given by its code; a `const char *` into a string is the suffix it points to, the null
  pointer is `none`.  `isupper` and `tolower` are those of the "C" locale.
-/

namespace Utils

/-! ## `timedate` -/

/-- The fields of `class timedate`; `day` and `month` count from 0. -/
structure timedate where
  hour : ℤ
  minute : ℤ
  second : ℤ
  day : ℤ
  month : ℤ
  year : ℤ
  deriving DecidableEq

/-- The default constructor `timedate()` (line 54). -/
def timedate.init : timedate := ⟨0, 0, 0, 0, 0, 3200⟩

/-- The table `timedate::days[2][12]` (lines 81-84), one row per leap flag. -/
def timedate.days (leap : Bool) : List ℤ :=
  if leap then [31, 29, 31, 30, 31, 30, 31, 31, 30, 31, 30, 31]
  else [31, 28, 31, 30, 31, 30, 31, 31, 30, 31, 30, 31]

/-- The loop `while (day >= days[leap][month]) day -= days[leap][month++];` (lines 106-107),
run on what is left of the row from index `month` on.  With nothing left the loop would
read past the row: no result. -/
def timedate.monthLoop : List ℤ → ℤ → ℤ → Option (ℤ × ℤ)
  | [], _, _ => none
  | d :: row, day, month =>
    if day ≥ d then timedate.monthLoop row (day - d) (month + 1) else some (month, day)

/-- The day count of line 94, "days since year 0". -/
def timedate.dayCount (stamp : ℤ) : ℤ :=
  Int.tdiv stamp 86400 + 1168410 - (if stamp < 0 then 1 else 0)

/-- `timedate::operator=(int stamp)` (lines 86-110). -/
def timedate.assign (stamp : ℤ) : Option timedate :=
  let i := Int.tmod stamp 86400
  let hour := Int.tmod (Int.tdiv i 3600 + 24) 24
  let i := Int.tmod i 3600
  let minute := Int.tmod (Int.tdiv i 60 + 60) 60
  let i := Int.tmod i 60
  let second := Int.tmod (i + 60) 60
  let i := timedate.dayCount stamp
  let n400 := Int.tdiv i 146097
  let i := Int.tmod i 146097
  let n100 := Int.tdiv i 36524
  let i := Int.tmod i 36524
  let n4 := Int.tdiv i 1461
  let i := Int.tmod i 1461
  let n1 := Int.tdiv i 365
  let last : Bool := n100 == 4 || n1 == 4
  let year := n1 + n4 * 4 + n100 * 100 + n400 * 400 + (if last then 0 else 1)
  let day := Int.tmod i 365 + (if last then 1 else 0) * 365
  let leap : Bool := (Int.tmod year 4 == 0 && Int.tmod year 100 != 0) || Int.tmod year 400 == 0
  match timedate.monthLoop (timedate.days leap) day 0 with
  | none => none
  | some (month, day) => some ⟨hour, minute, second, day, month, year⟩

/-! ## The calendar the decoding is compared with -/

/-- A calendar date; `month` and `day` count from 0. -/
structure Date where
  year : ℤ
  month : ℤ
  day : ℤ
  deriving DecidableEq

/-- Leap years of the Gregorian calendar: divisible by 4 and not by 100, or divisible
by 400. -/
def isLeapYear (y : ℤ) : Bool :=
  (y % 4 == 0 && y % 100 != 0) || y % 400 == 0

/-- The number of days of month `m` (0 is January) of year `y`. -/
def daysInMonth (y m : ℤ) : ℤ :=
  if m = 1 then (if isLeapYear y then 29 else 28)
  else if m = 3 ∨ m = 5 ∨ m = 8 ∨ m = 10 then 30
  else 31

/-- The date of the day after `d`. -/
def nextDay (d : Date) : Date :=
  if d.day + 1 < daysInMonth d.year d.month then ⟨d.year, d.month, d.day + 1⟩
  else if d.month + 1 < 12 then ⟨d.year, d.month + 1, 0⟩
  else ⟨d.year + 1, 0, 0⟩

/-- The proleptic Gregorian date `n` days after 1 January 3200. -/
def gregorianAfter (n : Nat) : Date :=
  nextDay^[n] ⟨3200, 0, 0⟩

/-- The date held by a `timedate`. -/
def timedate.date (t : timedate) : Date := ⟨t.year, t.month, t.day⟩

/-- The year `timedate::operator=` computes from a non-negative day count (lines 96-101),
written with floor division, which agrees with C division on non-negative operands. -/
def yearOf (i : ℤ) : ℤ :=
  i % 146097 % 36524 % 1461 / 365 + i % 146097 % 36524 / 1461 * 4 + i % 146097 / 36524 * 100
    + i / 146097 * 400
    + (if i % 146097 / 36524 = 4 ∨ i % 146097 % 36524 % 1461 / 365 = 4 then 0 else 1)

/-- The day of the year `timedate::operator=` computes from a non-negative day count
(line 102), written with floor division. -/
def dayOfYear (i : ℤ) : ℤ :=
  i % 146097 % 36524 % 1461 % 365
    + (if i % 146097 / 36524 = 4 ∨ i % 146097 % 36524 % 1461 / 365 = 4 then 1 else 0) * 365

/-- The number of days of year `y`. -/
def yearLength (y : ℤ) : ℤ := if isLeapYear y = true then 366 else 365

/-- The number of days of month `m` in a year with leap flag `leap`. -/
def monthLength (leap : Bool) (m : ℤ) : ℤ :=
  if m = 1 then (if leap = true then 29 else 28)
  else if m = 3 ∨ m = 5 ∨ m = 8 ∨ m = 10 then 30
  else 31

/-- Month and day of month the loop of lines 105-107 yields for day-of-year `n`. -/
def mdOf (leap : Bool) (n : ℤ) : ℤ × ℤ :=
  (timedate.monthLoop (timedate.days leap) n 0).getD (0, 0)

/-- The date `timedate::operator=` computes from a non-negative day count. -/
def dateOf (i : ℤ) : Date :=
  ⟨yearOf i, (mdOf (isLeapYear (yearOf i)) (dayOfYear i)).1,
    (mdOf (isLeapYear (yearOf i)) (dayOfYear i)).2⟩

/-! ## `pi_strcasestr` -/

/-- `isupper` in the "C" locale. -/
def isupper (c : Nat) : Bool := decide (65 ≤ c) && decide (c ≤ 90)

/-- `tolower` in the "C" locale. -/
def tolower (c : Nat) : Nat := if isupper c then c + 32 else c

/-- The macro `TOLOWER(c)` (line 293). -/
def TOLOWER (c : Nat) : Nat := if isupper c then tolower c else c

/-- How the inner `for (;;)` loop of `pi_strcasestr` ends. -/
inductive Inner
  | found
  | exhausted
  | mismatch
  deriving DecidableEq

/-- The inner loop (lines 312-321) on `rhaystack` and `rneedle`: `found` is
`return haystack` (the needle ended), `exhausted` is `return 0` (the haystack ended first),
`mismatch` is `break`. -/
def innerLoop : List Nat → List Nat → Inner
  | _, [] => .found
  | [], _ :: _ => .exhausted
  | h :: rhaystack, n :: rneedle =>
    if TOLOWER h ≠ TOLOWER n then .mismatch else innerLoop rhaystack rneedle

/-- The outer loop (lines 304-323), with `b` the lower-cased first character of the needle
and `needle` the rest of it. -/
def outerLoop (b : Nat) (needle : List Nat) : List Nat → Option (List Nat)
  | [] => none
  | h :: hs =>
    if TOLOWER h = b then
      match innerLoop hs needle with
      | .found => some (h :: hs)
      | .exhausted => none
      | .mismatch => outerLoop b needle hs
    else outerLoop b needle hs

/-- `pi_strcasestr(haystack, needle)` (lines 295-324). -/
def pi_strcasestr (haystack needle : List Nat) : Option (List Nat) :=
  match needle with
  | [] => some haystack
  | n :: rest => outerLoop (TOLOWER n) rest haystack

/-- The needle occurs in the haystack at index `i`, case-insensitively: the characters
`haystack[i .. i + len(needle))` exist and equal the needle's after lower-casing both. -/
def MatchAt (haystack needle : List Nat) (i : Nat) : Prop :=
  i + needle.length ≤ haystack.length ∧
  ((haystack.drop i).take needle.length).map TOLOWER = needle.map TOLOWER

/-- The needle `rn` is, case-insensitively, an initial part of `rh`. -/
def StartsWith (rh rn : List Nat) : Prop :=
  rn.length ≤ rh.length ∧ (rh.take rn.length).map TOLOWER = rn.map TOLOWER

end Utils

namespace LuaTimer

/-! ## Numbers -/

/-- `a < b` excludes `b <= a`, also with infinities and NaN. -/
theorem LuaNumber.not_le_of_lt {a b : LuaNumber} (h : a < b) : ¬ b ≤ a := by
  intro h2
  change LuaNumber.lt a b = true at h
  change LuaNumber.le b a = true at h2
  cases a with
  | nan => simp [LuaNumber.lt] at h
  | inf s =>
    cases b with
    | nan => cases s <;> simp [LuaNumber.lt] at h
    | inf t => cases s <;> cases t <;> simp [LuaNumber.lt, LuaNumber.le] at h h2
    | fin y => cases s <;> simp [LuaNumber.lt, LuaNumber.le] at h h2
  | fin x =>
    cases b with
    | nan => simp [LuaNumber.lt] at h
    | inf t => cases t <;> simp [LuaNumber.lt, LuaNumber.le] at h h2
    | fin y =>
      simp only [LuaNumber.lt, LuaNumber.le, decide_eq_true_eq] at h h2
      exact absurd h (not_lt.2 h2)

/-- The position of a positive rational between two neighbouring powers of two fixes its
binary logarithm. -/
theorem int_log_eq (x : ℚ) (e : ℤ) (hx : 0 < x) (h1 : (2 : ℚ) ^ e ≤ x)
    (h2 : x < (2 : ℚ) ^ (e + 1)) : Int.log 2 x = e := by
  have a : e ≤ Int.log 2 x := (Int.zpow_le_iff_le_log (by norm_num) hx).1 (by exact_mod_cast h1)
  have b : Int.log 2 x < e + 1 := (Int.lt_zpow_iff_log_lt (by norm_num) hx).1 (by exact_mod_cast h2)
  omega

/-- Doubles near `2 ^ 27` are `2 ^ -25` apart, so adding `2 ^ -30` to `2 ^ 27` gives
`2 ^ 27` again. -/
theorem absorb : (LuaNumber.fin 134217728 : LuaNumber) + .fin (1 / 1073741824)
    = .fin 134217728 := by
  have hx : (134217728 : ℚ) + 1 / 1073741824 = 144115188075855873 / 1073741824 := by norm_num
  have habs : |(144115188075855873 / 1073741824 : ℚ)| = 144115188075855873 / 1073741824 :=
    abs_of_pos (by norm_num)
  have hlog : Int.log 2 (144115188075855873 / 1073741824 : ℚ) = 27 :=
    int_log_eq _ 27 (by norm_num) (by norm_num) (by norm_num)
  have hulp : (2 : ℚ) ^ (max (27 : ℤ) (-1022) - 52) = 1 / 33554432 := by
    norm_num [zpow_neg]
  have hfloor : ⌊(144115188075855873 / 1073741824 : ℚ) / (1 / 33554432)⌋
      = 4503599627370496 := by
    rw [Int.floor_eq_iff]
    constructor <;> norm_num
  have hround : roundHalfEven ((144115188075855873 / 1073741824 : ℚ) / (1 / 33554432))
      = 4503599627370496 := by
    unfold roundHalfEven
    rw [hfloor]
    norm_num
  show LuaNumber.add _ _ = _
  unfold LuaNumber.add roundDouble
  simp only [hx, habs, hlog, hulp, hround]
  norm_num

/-! ## The table: reading and writing -/

theorem gettable_filter_ne (t : Table) (k j : Nat) :
    Table.gettable (t.filter (fun p => p.1 != k)) j = if j = k then none else t.gettable j := by
  induction t with
  | nil => simp [Table.gettable, List.lookup]
  | cons p t ih =>
    obtain ⟨a, e⟩ := p
    unfold Table.gettable at ih ⊢
    by_cases hak : a = k
    · subst hak
      by_cases hj : j = a
      · subst hj; simpa [List.filter] using ih
      · have hja : (j == a) = false := by simpa using hj
        simp only [List.filter, bne_self_eq_false, List.lookup, hja, ih]
    · have h1 : (a != k) = true := by simpa using hak
      by_cases hj : j = a
      · subst hj
        simp [List.filter, h1, List.lookup, hak]
      · have hja : (j == a) = false := by simpa using hj
        simp only [List.filter, h1, List.lookup, hja, ih]

theorem gettable_settable (t : Table) (k j : Nat) (v : Option TimerEntry) :
    (t.settable k v).gettable j = if j = k then v else t.gettable j := by
  cases v with
  | none => simpa [Table.settable] using gettable_filter_ne t k j
  | some e =>
    have h := gettable_filter_ne t k j
    unfold Table.gettable at h ⊢
    by_cases hj : j = k
    · subst hj; simp [Table.settable, List.lookup]
    · have hjk : (j == k) = false := by simpa using hj
      simp only [Table.settable, List.lookup, hjk, h, hj, if_false]

theorem gettable_mem (t : Table) (k : Nat) (e : TimerEntry) (h : t.gettable k = some e) :
    (k, e) ∈ t := by
  induction t with
  | nil => simp [Table.gettable, List.lookup] at h
  | cons p t ih =>
    obtain ⟨a, b⟩ := p
    unfold Table.gettable at h ih
    by_cases hk : k = a
    · subst hk
      simp [List.lookup] at h
      simp [h]
    · have hka : (k == a) = false := by simpa using hk
      simp only [List.lookup, hka] at h
      exact List.mem_cons_of_mem _ (ih h)

/-! ## Well-formed states and the effect of a registration -/

theorem wf_of_list (s : LuaState) (h1 : ∀ p ∈ s.timers, p.2.id < s.allocs)
    (h2 : (s.timers.map (fun p => p.2.id)).Nodup) : WF s := by
  refine ⟨fun k e h => h1 _ (gettable_mem _ _ _ h), ?_⟩
  intro k k2 e e2 h h' hid
  have m1 := gettable_mem _ _ _ h
  have m2 := gettable_mem _ _ _ h'
  have := List.inj_on_of_nodup_map h2 m1 m2 hid
  exact congrArg Prod.fst this

theorem entry_settimer (s : LuaState) (k j : Nat) (v : Option TimerEntry) :
    (s.settimer k v).entry j = if j = k then v else s.entry j := by
  simp [LuaState.entry, LuaState.settimer, LuaState.timers, gettable_settable]

theorem finish_timers (L : ObjLen) (s : LuaState) (e : TimerEntry) :
    (_finish_timer_create L s e).timers = s.timers.settable (L.len s.timers + 1) (some e) := by
  unfold _finish_timer_create LuaState.timers
  cases h : s.PiTimerCallbacks <;> simp

theorem finish_entry (L : ObjLen) (s : LuaState) (e : TimerEntry) (j : Nat) :
    (_finish_timer_create L s e).entry j
      = if j = L.len s.timers + 1 then some e else s.entry j := by
  simp [LuaState.entry, finish_timers, gettable_settable]

theorem finish_gameTime (L : ObjLen) (s : LuaState) (e : TimerEntry) :
    (_finish_timer_create L s e).gameTime = s.gameTime := by
  unfold _finish_timer_create
  cases h : s.PiTimerCallbacks <;> simp

theorem finish_allocs (L : ObjLen) (s : LuaState) (e : TimerEntry) :
    s.allocs ≤ (_finish_timer_create L s e).allocs := by
  unfold _finish_timer_create
  cases h : s.PiTimerCallbacks <;> simp

theorem finish_calls (L : ObjLen) (s : LuaState) (e : TimerEntry) :
    (_finish_timer_create L s e).calls = s.calls := by
  unfold _finish_timer_create
  cases h : s.PiTimerCallbacks <;> simp

theorem finish_registry (L : ObjLen) (s : LuaState) (e : TimerEntry) :
    (_finish_timer_create L s e).PiTimerCallbacks ≠ none := by
  unfold _finish_timer_create
  cases h : s.PiTimerCallbacks <;> simp

theorem free_key (L : ObjLen) (s : LuaState) : s.entry (L.len s.timers + 1) = none :=
  (L.border s.timers).2

/-- A registration of a fresh table object, as `Timer:CallAt` or `Timer:CallEvery` build it,
grows the state. -/
theorem grows_register (L : ObjLen) (s : LuaState) (e : TimerEntry)
    (hid : e.id = s.allocs)
    (hkind : (e.every = none ∧ ¬ e.at_ ≤ s.gameTime) ∨
      (∃ i, e.every = some i ∧ ¬ i ≤ 0 ∧ e.at_ = s.gameTime + i)) :
    Grows s (_finish_timer_create L { s with allocs := s.allocs + 1 } e) := by
  set s1 : LuaState := { s with allocs := s.allocs + 1 } with hs1
  have ht : s1.timers = s.timers := rfl
  have hfree : s.entry (L.len s.timers + 1) = none := free_key L s
  have hent : ∀ j, (_finish_timer_create L s1 e).entry j
      = if j = L.len s.timers + 1 then some e else s.entry j := by
    intro j; rw [finish_entry, ht]; rfl
  have hal : s.allocs + 1 ≤ (_finish_timer_create L s1 e).allocs := finish_allocs L s1 e
  have hnew : NewIn s (_finish_timer_create L s1 e) e :=
    ⟨by omega, by omega, hkind⟩
  refine ⟨by rw [finish_gameTime], by omega, ?_, ?_, ?_⟩
  · intro k x hk
    rw [hent]
    have : k ≠ L.len s.timers + 1 := by
      rintro rfl; rw [hfree] at hk; cases hk
    simp [this, hk]
  · intro k x hk
    rw [hent] at hk
    by_cases h : k = L.len s.timers + 1
    · simp [h] at hk; subst hk; exact Or.inr hnew
    · simp [h] at hk; exact Or.inl hk
  · rintro ⟨hf, hu⟩
    refine ⟨?_, ?_⟩
    · intro k x hk
      rw [hent] at hk
      by_cases h : k = L.len s.timers + 1
      · simp [h] at hk; subst hk; omega
      · simp [h] at hk; have := hf k x hk; omega
    · intro k k2 x x2 hk hk2 hxx
      rw [hent] at hk hk2
      by_cases h : k = L.len s.timers + 1 <;> by_cases h2 : k2 = L.len s.timers + 1
      · rw [h, h2]
      · simp [h] at hk; simp [h2] at hk2; subst hk
        have := hf k2 x2 hk2; omega
      · simp [h] at hk; simp [h2] at hk2; subst hk2
        have := hf k x hk; omega
      · simp [h] at hk; simp [h2] at hk2
        exact hu k k2 x x2 hk hk2 hxx

theorem Grows.refl (s : LuaState) : Grows s s :=
  ⟨rfl, le_refl _, fun _ _ h => h, fun _ _ h => Or.inl h, fun h => h⟩

theorem Grows.bump (s : LuaState) : Grows s { s with calls := s.calls + 1 } :=
  ⟨rfl, le_refl _, fun _ _ h => h, fun _ _ h => Or.inl h, fun h => h⟩

theorem Grows.trans {s s2 s3 : LuaState} (h1 : Grows s s2) (h2 : Grows s2 s3) : Grows s s3 := by
  refine ⟨by rw [h2.time, h1.time], le_trans h1.allocs h2.allocs,
    fun k e h => h2.keep k e (h1.keep k e h), ?_, fun h => h2.wf (h1.wf h)⟩
  intro k e h
  rcases h2.fresh k e h with h | ⟨a, b, c⟩
  · rcases h1.fresh k e h with h | ⟨a, b, c⟩
    · exact Or.inl h
    · exact Or.inr ⟨a, lt_of_lt_of_le b h2.allocs, c⟩
  · exact Or.inr ⟨le_trans h1.allocs a, b, by rw [← h1.time]; exact c⟩

theorem grows_call_at (L : ObjLen) (s : LuaState) (time : LuaNumber) (fn : Callback) :
    Grows s (l_timer_call_at L s time fn).2 := by
  unfold l_timer_call_at
  split
  · exact Grows.refl s
  · rename_i h
    exact grows_register L s _ rfl (Or.inl ⟨rfl, h⟩)

theorem grows_call_every (L : ObjLen) (s : LuaState) (every : LuaNumber) (fn : Callback) :
    Grows s (l_timer_call_every L s every fn).2 := by
  unfold l_timer_call_every
  split
  · exact Grows.refl s
  · rename_i h
    exact grows_register L s _ rfl (Or.inr ⟨every, rfl, h, rfl⟩)

theorem grows_serve (L : ObjLen) (rs : List Request) (s : LuaState) : Grows s (serve L rs s) := by
  induction rs generalizing s with
  | nil => exact Grows.refl s
  | cons r rs ih =>
    cases r with
    | CallAt time fn => exact (grows_call_at L s time fn).trans (ih _)
    | CallEvery every fn => exact (grows_call_every L s every fn).trans (ih _)

theorem grows_lua_call (script : Script) (L : ObjLen) (s : LuaState) (fn : Callback) :
    Grows s (lua_call script L s fn).1 :=
  (Grows.bump s).trans (grows_serve L _ _)

/-! ## One pass of the loop body -/

theorem tickEntry_visit (script : Script) (L : ObjLen) (now : LuaNumber) (s : LuaState)
    (log : List Fired) (j : Nat) :
    Visit script now s log j (tickEntry script L now (s, log) j) := by
  unfold tickEntry
  cases he : s.entry j with
  | none => exact Visit.skip (Or.inl he)
  | some e =>
    simp only [he]
    by_cases hdue : e.at_ ≤ now
    · simp only [hdue, if_true]
      have hg := grows_lua_call script L s e.callback
      cases hev : e.every with
      | none =>
        exact Visit.remove e _ _ he hdue hg rfl (Or.inl hev)
      | some p =>
        simp only
        by_cases hc : lua_toboolean (lua_call script L s e.callback).2 = true
        · simp only [hc, if_true]
          exact Visit.remove e _ _ he hdue hg rfl (Or.inr hc)
        · have hb : lua_toboolean (lua_call script L s e.callback).2 = false := by
            simpa using hc
          have hv := @Visit.rearm script now s log j e _ _ p he hdue hg rfl hev hb
          rw [hev] at hv
          simpa only [hb, Bool.false_eq_true, if_false] using hv
    · simp only [hdue, if_false]
      exact Visit.skip (Or.inr ⟨e, he, hdue⟩)

theorem Tick_eq_foldl (script : Script) (L : ObjLen) (visits : List Nat) (s : LuaState) :
    Tick script L visits s = visits.foldl (tickEntry script L s.gameTime) (s, []) := by
  unfold Tick
  cases h : s.PiTimerCallbacks with
  | some t => rfl
  | none =>
    simp only
    induction visits with
    | nil => rfl
    | cons j js ih =>
      have : tickEntry script L s.gameTime (s, []) j = (s, []) := by
        simp [tickEntry, LuaState.entry, LuaState.timers, h, Table.gettable]
      rw [List.foldl_cons, this]
      exact ih

/-! ## What holds throughout one `Tick` -/

theorem settimer_gameTime (s : LuaState) (k : Nat) (v : Option TimerEntry) :
    (s.settimer k v).gameTime = s.gameTime := rfl

theorem settimer_allocs (s : LuaState) (k : Nat) (v : Option TimerEntry) :
    (s.settimer k v).allocs = s.allocs := rfl

theorem wf_settimer_none (s : LuaState) (j : Nat) (h : WF s) : WF (s.settimer j none) := by
  obtain ⟨hf, hu⟩ := h
  refine ⟨?_, ?_⟩
  · intro k e hk
    rw [entry_settimer] at hk
    by_cases hkj : k = j
    · simp [hkj] at hk
    · simp only [hkj, if_false] at hk
      exact hf k e hk
  · intro k k2 e e2 hk hk2 hid
    rw [entry_settimer] at hk hk2
    by_cases hkj : k = j
    · simp [hkj] at hk
    · by_cases hkj2 : k2 = j
      · simp [hkj2] at hk2
      · simp only [hkj, hkj2, if_false] at hk hk2
        exact hu k k2 e e2 hk hk2 hid

theorem wf_settimer_same (s : LuaState) (j : Nat) (e e2 : TimerEntry) (h : WF s)
    (hj : s.entry j = some e) (hid : e2.id = e.id) : WF (s.settimer j (some e2)) := by
  obtain ⟨hf, hu⟩ := h
  refine ⟨?_, ?_⟩
  · intro k x hk
    rw [entry_settimer] at hk
    by_cases hkj : k = j
    · simp only [hkj, if_true, Option.some.injEq] at hk
      subst hk
      rw [hid]; exact hf j e hj
    · simp only [hkj, if_false] at hk
      exact hf k x hk
  · intro k k2 x x2 hk hk2 hxx
    rw [entry_settimer] at hk hk2
    by_cases hkj : k = j <;> by_cases hkj2 : k2 = j
    · rw [hkj, hkj2]
    · simp only [hkj, if_true, Option.some.injEq] at hk
      simp only [hkj2, if_false] at hk2
      subst hk
      rw [hkj]
      exact hu j k2 e x2 hj hk2 (by rw [← hid]; exact hxx)
    · simp only [hkj2, if_true, Option.some.injEq] at hk2
      simp only [hkj, if_false] at hk
      subst hk2
      rw [hkj2]
      exact hu k j x e hk hj (by rw [hxx]; exact hid)
    · simp only [hkj, hkj2, if_false] at hk hk2
      exact hu k k2 x x2 hk hk2 hxx

theorem TickInv.start (script : Script) (s0 : LuaState) : TickInv script s0 (s0, []) := by
  refine ⟨rfl, le_refl _, ?_, fun _ _ h _ => h, ?_, ?_, fun h => h⟩
  · intro k e h
    exact Or.inl ⟨e, h, rfl, rfl, rfl, Or.inl rfl⟩
  · intro r hr
    cases hr
  · intro r hr
    cases hr

/-- An entry found after the callback ran either descends from `s0` or is new since `s0`. -/
theorem origin_after_call (script : Script) (s0 s s1 : LuaState) (log : List Fired)
    (inv : TickInv script s0 (s, log)) (hg : Grows s s1) (k : Nat) (x : TimerEntry)
    (hx : s1.entry k = some x) : Kept s0 k x ∨ NewIn s0 s1 x := by
  rcases hg.fresh k x hx with h | ⟨a, b, c⟩
  · rcases inv.origin k x h with h | ⟨a, b, c⟩
    · exact Or.inl h
    · exact Or.inr ⟨a, lt_of_lt_of_le b hg.allocs, c⟩
  · exact Or.inr ⟨le_trans inv.allocs a, b, by rw [← inv.time]; exact c⟩

/-- Where a due entry comes from: an entry of `s0` that was due, or a `Timer:CallEvery`
made during the `Tick`. -/
theorem source_of_due (script : Script) (s0 s : LuaState) (log : List Fired)
    (inv : TickInv script s0 (s, log)) (j : Nat) (e : TimerEntry) (r : LuaValue)
    (he : s.entry j = some e) (hdue : e.at_ ≤ s0.gameTime) :
    FromStart s0 ⟨j, e, r⟩ ∨ FromEvery s0 ⟨j, e, r⟩ := by
  rcases inv.origin j e he with ⟨e0, h0, h1, h2, h3, h4⟩ | ⟨a, _, c⟩
  · refine Or.inl ⟨e0, h0, ?_, h1, h2, h3⟩
    rcases h4 with h4 | ⟨h4, _⟩
    · rw [← h4]; exact hdue
    · exact h4
  · rcases c with ⟨_, c⟩ | c
    · exact absurd hdue c
    · exact Or.inr ⟨a, c⟩

/-- A due entry that is rearmed keeps its origin. -/
theorem origin_rearm (script : Script) (s0 s s1 : LuaState) (log : List Fired)
    (inv : TickInv script s0 (s, log)) (hg : Grows s s1) (j : Nat) (e : TimerEntry)
    (p : LuaNumber) (he : s.entry j = some e) (hdue : e.at_ ≤ s0.gameTime)
    (hev : e.every = some p) (htime : s1.gameTime = s0.gameTime) :
    Kept s0 j { e with at_ := s1.gameTime + p } ∨
      NewIn s0 (s1.settimer j (some { e with at_ := s1.gameTime + p }))
        { e with at_ := s1.gameTime + p } := by
  rcases inv.origin j e he with ⟨e0, h0, h1, h2, h3, h4⟩ | ⟨a, b, c⟩
  · refine Or.inl ⟨e0, h0, h1, h2, h3, Or.inr ⟨?_, p, hev, by simp [htime]⟩⟩
    rcases h4 with h4 | ⟨h4, _⟩
    · rw [← h4]; exact hdue
    · exact h4
  · refine Or.inr ⟨a, lt_of_lt_of_le b hg.allocs, ?_⟩
    rcases c with ⟨c, _⟩ | ⟨i, c1, c2, _⟩
    · rw [hev] at c; cases c
    · rw [hev] at c1; cases c1
      exact Or.inr ⟨p, hev, c2, by simp [htime]⟩

theorem TickInv.step (script : Script) (s0 s : LuaState) (log : List Fired) (j : Nat)
    (acc : LuaState × List Fired) (inv : TickInv script s0 (s, log))
    (hv : Visit script s0.gameTime s log j acc) : TickInv script s0 acc := by
  cases hv with
  | skip _ => exact inv
  | remove e s1 r he hdue hg hr hc =>
    refine ⟨by rw [settimer_gameTime, hg.time]; exact inv.time,
      le_trans inv.allocs hg.allocs, ?_, ?_, ?_, ?_, ?_⟩
    · intro k x hk
      rw [entry_settimer] at hk
      by_cases hkj : k = j
      · simp [hkj] at hk
      · simp only [hkj, if_false] at hk
        exact origin_after_call script s0 s s1 log inv hg k x hk
    · intro k x hk hlt
      have h1 := inv.pending k x hk hlt
      have hkj : k ≠ j := by
        rintro rfl
        rw [he] at h1
        cases h1
        exact hlt hdue
      rw [entry_settimer]
      simp only [hkj, if_false]
      exact hg.keep k x h1
    · intro x hx
      rcases List.mem_append.1 hx with hx | hx
      · exact inv.fired x hx
      · simp only [List.mem_singleton] at hx
        subst hx
        exact ⟨hdue, ⟨_, hr⟩, source_of_due script s0 s log inv j e r he hdue⟩
    · intro x hx
      rcases List.mem_append.1 hx with hx | hx
      · exact inv.keys x hx
      · simp only [List.mem_singleton] at hx
        subst hx
        intro e0 h0
        by_contra hnd
        have h1 := inv.pending j e0 h0 hnd
        rw [he] at h1
        cases h1
        exact hnd hdue
    · intro h
      exact wf_settimer_none _ _ (hg.wf (inv.wf h))
  | rearm e s1 r p he hdue hg hr hev hc =>
    have htime : s1.gameTime = s0.gameTime := by rw [hg.time]; exact inv.time
    refine ⟨by rw [settimer_gameTime]; exact htime,
      le_trans inv.allocs hg.allocs, ?_, ?_, ?_, ?_, ?_⟩
    · intro k x hk
      rw [entry_settimer] at hk
      by_cases hkj : k = j
      · simp only [hkj, if_true, Option.some.injEq] at hk
        subst hk
        rw [hkj]
        exact origin_rearm script s0 s s1 log inv hg j e p he hdue hev htime
      · simp only [hkj, if_false] at hk
        exact origin_after_call script s0 s s1 log inv hg k x hk
    · intro k x hk hlt
      have h1 := inv.pending k x hk hlt
      have hkj : k ≠ j := by
        rintro rfl
        rw [he] at h1
        cases h1
        exact hlt hdue
      rw [entry_settimer]
      simp only [hkj, if_false]
      exact hg.keep k x h1
    · intro x hx
      rcases List.mem_append.1 hx with hx | hx
      · exact inv.fired x hx
      · simp only [List.mem_singleton] at hx
        subst hx
        exact ⟨hdue, ⟨_, hr⟩, source_of_due script s0 s log inv j e r he hdue⟩
    · intro x hx
      rcases List.mem_append.1 hx with hx | hx
      · exact inv.keys x hx
      · simp only [List.mem_singleton] at hx
        subst hx
        intro e0 h0
        by_contra hnd
        have h1 := inv.pending j e0 h0 hnd
        rw [he] at h1
        cases h1
        exact hnd hdue
    · intro h
      exact wf_settimer_same _ _ e _ (hg.wf (inv.wf h)) (hg.keep j e he) rfl

theorem TickInv.foldl (script : Script) (L : ObjLen) (s0 : LuaState) (visits : List Nat)
    (acc : LuaState × List Fired) (inv : TickInv script s0 acc) :
    TickInv script s0 (visits.foldl (tickEntry script L s0.gameTime) acc) := by
  induction visits generalizing acc with
  | nil => exact inv
  | cons j js ih =>
    rw [List.foldl_cons]
    exact ih _ (TickInv.step script s0 acc.1 acc.2 j _ inv (tickEntry_visit _ _ _ _ _ _))

theorem tick_inv (script : Script) (L : ObjLen) (visits : List Nat) (s : LuaState) :
    TickInv script s (Tick script L visits s) := by
  rw [Tick_eq_foldl]
  exact TickInv.foldl script L s visits _ (TickInv.start script s)

/-! ## Following one entry through a `Tick` -/

theorem firings_append (i : Nat) (l1 l2 : List Fired) :
    firings i (l1 ++ l2) = firings i l1 ++ firings i l2 := by
  simp [firings, List.filter_append]

theorem firings_eq_nil (i : Nat) (l : List Fired) (h : ∀ r ∈ l, r.timer.id ≠ i) :
    firings i l = [] := by
  induction l with
  | nil => rfl
  | cons a l ih =>
    have ha : a.timer.id ≠ i := h a (List.mem_cons_self _ _)
    have hl := ih (fun r hr => h r (List.mem_cons_of_mem _ hr))
    simp only [firings] at hl ⊢
    simp [List.filter, ha, hl]

theorem firings_single (i : Nat) (r : Fired) :
    firings i [r] = if r.timer.id = i then [r] else [] := by
  by_cases h : r.timer.id = i <;> simp [firings, List.filter, h]

theorem mem_of_firings_nil (i : Nat) (l : List Fired) (h : firings i l = []) :
    ∀ r ∈ l, r.timer.id ≠ i := by
  intro r hr hid
  have : r ∈ firings i l := by
    simp only [firings, List.mem_filter]
    exact ⟨hr, by simpa using hid⟩
  rw [h] at this
  cases this

theorem pend_step (script : Script) (now : LuaNumber) (s : LuaState) (log : List Fired)
    (j k : Nat)
    (e : TimerEntry) (acc : LuaState × List Fired) (hwf : WF s) (hp : Pend k e (s, log))
    (hjk : ¬ e.at_ ≤ now ∨ j ≠ k) (hv : Visit script now s log j acc) : Pend k e acc := by
  obtain ⟨hk, hlog⟩ := hp
  simp only at hk hlog
  have key : ∀ ej, s.entry j = some ej → ej.at_ ≤ now → j ≠ k := by
    intro ej hj hdue hjk2
    subst hjk2
    rw [hk] at hj
    cases hj
    rcases hjk with h | h
    · exact h hdue
    · exact h rfl
  cases hv with
  | skip _ => exact ⟨hk, hlog⟩
  | remove ej s1 r he hdue hg hr hc =>
    have hne := key ej he hdue
    refine ⟨?_, ?_⟩
    · simp only [entry_settimer, Ne.symm hne, if_false]
      exact hg.keep k e hk
    · intro x hx
      rcases List.mem_append.1 hx with hx | hx
      · exact hlog x hx
      · simp only [List.mem_singleton] at hx
        subst hx
        intro hid
        exact hne (hwf.2 j k ej e he hk hid)
  | rearm ej s1 r p he hdue hg hr hev hc =>
    have hne := key ej he hdue
    refine ⟨?_, ?_⟩
    · simp only [entry_settimer, Ne.symm hne, if_false]
      exact hg.keep k e hk
    · intro x hx
      rcases List.mem_append.1 hx with hx | hx
      · exact hlog x hx
      · simp only [List.mem_singleton] at hx
        subst hx
        intro hid
        exact hne (hwf.2 j k ej e he hk hid)

theorem pend_fire (script : Script) (now : LuaNumber) (s : LuaState) (log : List Fired)
    (k : Nat)
    (e : TimerEntry) (acc : LuaState × List Fired) (hwf : WF s) (htime : s.gameTime = now)
    (hp : Pend k e (s, log)) (hdue : e.at_ ≤ now) (hv : Visit script now s log k acc) :
    Done now k e acc := by
  obtain ⟨hk, hlog⟩ := hp
  simp only at hk hlog
  have hnil := firings_eq_nil e.id log hlog
  cases hv with
  | skip h =>
    rcases h with h | ⟨x, hx, hlt⟩
    · rw [hk] at h; cases h
    · rw [hk] at hx; cases hx
      exact absurd hdue hlt
  | remove ej s1 r he hdue2 hg hr hc =>
    rw [hk] at he; cases he
    refine ⟨r, ?_, Or.inl ⟨hc, ?_, ?_⟩⟩
    · simp [firings_append, hnil, firings_single]
    · exact lt_of_lt_of_le (hwf.1 k e hk) hg.allocs
    · intro k2 x hx hid
      rw [entry_settimer] at hx
      by_cases h2 : k2 = k
      · simp [h2] at hx
      · simp only [h2, if_false] at hx
        exact h2 ((hg.wf hwf).2 k2 k x e hx (hg.keep k e hk) hid)
  | rearm ej s1 r p he hdue2 hg hr hev hc =>
    rw [hk] at he; cases he
    refine ⟨r, ?_, Or.inr ⟨p, hev, hc, ?_⟩⟩
    · simp [firings_append, hnil, firings_single]
    · simp [entry_settimer, hg.time, htime]

theorem done_step (script : Script) (now : LuaNumber) (s : LuaState) (log : List Fired)
    (j k : Nat)
    (e : TimerEntry) (acc : LuaState × List Fired) (hwf : WF s)
    (honce : ∀ p, e.every = some p → ¬ now + p ≤ now)
    (hd : Done now k e (s, log)) (hv : Visit script now s log j acc) : Done now k e acc := by
  obtain ⟨r0, hfir, hout⟩ := hd
  simp only at hfir hout
  -- whatever is invoked now is another table object
  have other : ∀ ej, s.entry j = some ej → ej.at_ ≤ now → ej.id ≠ e.id ∧
      (∀ p, e.every = some p → s.entry k = some { e with at_ := now + p } → j ≠ k) := by
    intro ej hj hdue
    rcases hout with ⟨_, _, hab⟩ | ⟨p, hev, _, hk⟩
    · refine ⟨hab j ej hj, ?_⟩
      intro p _ hk hjk
      subst hjk
      exact hab j _ hk rfl
    · have hjk : j ≠ k := by
        rintro rfl
        rw [hk] at hj
        cases hj
        exact honce p hev hdue
      refine ⟨?_, fun _ _ _ => hjk⟩
      intro hid
      exact hjk (hwf.2 j k ej _ hj hk hid)
  -- the schedule after the callback ran and key `j` was rewritten to an object `≠ e.id`
  have after : ∀ (ej : TimerEntry) (s1 : LuaState) (v : Option TimerEntry),
      s.entry j = some ej → ej.at_ ≤ now → Grows s s1 → (∀ x, v = some x → x.id = ej.id) →
      (((e.every = none ∨ lua_toboolean r0 = true) ∧ Absent e.id (s1.settimer j v)) ∨
       (∃ p, e.every = some p ∧ lua_toboolean r0 = false ∧
          (s1.settimer j v).entry k = some { e with at_ := now + p })) := by
    intro ej s1 v hj hdue hg hv
    obtain ⟨hne, hjk⟩ := other ej hj hdue
    rcases hout with ⟨hc, hlt, hab⟩ | ⟨p, hev, hc, hk⟩
    · refine Or.inl ⟨hc, lt_of_lt_of_le hlt hg.allocs, ?_⟩
      intro k2 x hx
      rw [entry_settimer] at hx
      by_cases h2 : k2 = j
      · simp only [h2, if_true] at hx
        rw [hv x hx]; exact hne
      · simp only [h2, if_false] at hx
        rcases hg.fresh k2 x hx with h | ⟨a, _, _⟩
        · exact hab k2 x h
        · omega
    · refine Or.inr ⟨p, hev, hc, ?_⟩
      have := hjk p hev hk
      simp only [entry_settimer, Ne.symm this, if_false]
      exact hg.keep k _ hk
  cases hv with
  | skip _ => exact ⟨r0, hfir, hout⟩
  | remove ej s1 r he hdue hg hr hc =>
    refine ⟨r0, ?_, after ej s1 none he hdue hg (by intro x hx; cases hx)⟩
    simp [firings_append, hfir, firings_single, (other ej he hdue).1]
  | rearm ej s1 r p he hdue hg hr hev hc =>
    refine ⟨r0, ?_, after ej s1 _ he hdue hg (by intro x hx; cases hx; rfl)⟩
    simp [firings_append, hfir, firings_single, (other ej he hdue).1]

theorem done_foldl (script : Script) (L : ObjLen) (s0 : LuaState) (visits : List Nat)
    (acc : LuaState × List Fired) (k : Nat) (e : TimerEntry) (hwf : WF s0)
    (honce : ∀ p, e.every = some p → ¬ s0.gameTime + p ≤ s0.gameTime)
    (inv : TickInv script s0 acc)
    (hd : Done s0.gameTime k e acc) :
    Done s0.gameTime k e (visits.foldl (tickEntry script L s0.gameTime) acc) := by
  induction visits generalizing acc with
  | nil => exact hd
  | cons j js ih =>
    rw [List.foldl_cons]
    have hv := tickEntry_visit script L s0.gameTime acc.1 acc.2 j
    exact ih _ (TickInv.step script s0 acc.1 acc.2 j _ inv hv)
      (done_step script _ acc.1 acc.2 j k e _ (inv.wf hwf) honce hd hv)

theorem pend_foldl_due (script : Script) (L : ObjLen) (s0 : LuaState) (visits : List Nat)
    (acc : LuaState × List Fired) (k : Nat) (e : TimerEntry) (hwf : WF s0)
    (honce : ∀ p, e.every = some p → ¬ s0.gameTime + p ≤ s0.gameTime)
    (inv : TickInv script s0 acc)
    (hp : Pend k e acc) (hdue : e.at_ ≤ s0.gameTime) (hk : k ∈ visits) :
    Done s0.gameTime k e (visits.foldl (tickEntry script L s0.gameTime) acc) := by
  induction visits generalizing acc with
  | nil => cases hk
  | cons j js ih =>
    rw [List.foldl_cons]
    have hv := tickEntry_visit script L s0.gameTime acc.1 acc.2 j
    have inv2 := TickInv.step script s0 acc.1 acc.2 j _ inv hv
    by_cases hjk : j = k
    · subst hjk
      exact done_foldl script L s0 js _ j e hwf honce inv2
        (pend_fire script _ acc.1 acc.2 j e _ (inv.wf hwf) inv.time hp hdue hv)
    · have hmem : k ∈ js := by
        rcases List.mem_cons.1 hk with h | h
        · exact absurd h.symm hjk
        · exact h
      exact ih _ inv2 (pend_step script _ acc.1 acc.2 j k e _ (inv.wf hwf) hp (Or.inr hjk) hv)
        hmem

theorem pend_start (s : LuaState) (k : Nat) (e : TimerEntry) (h : s.entry k = some e) :
    Pend k e (s, []) :=
  ⟨h, fun _ hr => by cases hr⟩

/-- A stored entry that is due and reached by the traversal is invoked exactly once, unless
it is a repeating entry whose new due time is not above the game time. -/
theorem tick_due (script : Script) (L : ObjLen) (visits : List Nat) (s : LuaState) (k : Nat)
    (e : TimerEntry) (hwf : WF s)
    (honce : ∀ p, e.every = some p → ¬ s.gameTime + p ≤ s.gameTime)
    (hk : s.entry k = some e) (hdue : e.at_ ≤ s.gameTime) (hvis : k ∈ visits) :
    Done s.gameTime k e (Tick script L visits s) := by
  rw [Tick_eq_foldl]
  exact pend_foldl_due script L s visits _ k e hwf honce (TickInv.start script s)
    (pend_start s k e hk) hdue hvis

theorem tick_wf (script : Script) (L : ObjLen) (visits : List Nat) (s : LuaState) (hwf : WF s) :
    WF (Tick script L visits s).1 :=
  (tick_inv script L visits s).wf hwf

/-- A table object that is stored nowhere stays so through a `Tick`, and is not invoked. -/
theorem tick_absent (script : Script) (L : ObjLen) (visits : List Nat) (s : LuaState) (i : Nat)
    (h : Absent i s) :
    Absent i (Tick script L visits s).1 ∧ firings i (Tick script L visits s).2 = [] := by
  have inv := tick_inv script L visits s
  refine ⟨⟨lt_of_lt_of_le h.1 inv.allocs, ?_⟩, ?_⟩
  · intro k x hx hid
    rcases inv.origin k x hx with ⟨e0, h0, h1, _⟩ | ⟨a, _, _⟩
    · exact h.2 k e0 h0 (h1.trans hid)
    · have := h.1; omega
  · apply firings_eq_nil
    intro r hr hid
    rcases (inv.fired r hr).2.2 with ⟨e0, h0, _, h1, _⟩ | ⟨a, _⟩
    · exact h.2 r.key e0 h0 (h1.trans hid)
    · have := h.1; omega

/-! ## Invariants over sequences of operations -/

theorem step_wf (script : Script) (L : ObjLen) (s : LuaState) (op : Op) (hwf : WF s) :
    WF (step script L s op).1 := by
  cases op with
  | Tick visits => exact tick_wf script L visits s hwf
  | CallAt time fn => exact (grows_call_at L s time fn).wf hwf
  | CallEvery every fn => exact (grows_call_every L s every fn).wf hwf
  | SetGameTime t => exact hwf

theorem grows_absent (s s2 : LuaState) (i : Nat) (hg : Grows s s2) (h : Absent i s) :
    Absent i s2 := by
  refine ⟨lt_of_lt_of_le h.1 hg.allocs, ?_⟩
  intro k x hx hid
  rcases hg.fresh k x hx with h0 | ⟨a, _, _⟩
  · exact h.2 k x h0 hid
  · have := h.1; omega

theorem step_absent (script : Script) (L : ObjLen) (s : LuaState) (op : Op) (i : Nat)
    (h : Absent i s) :
    Absent i (step script L s op).1 ∧ firings i (step script L s op).2 = [] := by
  cases op with
  | Tick visits => exact tick_absent script L visits s i h
  | CallAt time fn => exact ⟨grows_absent _ _ i (grows_call_at L s time fn) h, rfl⟩
  | CallEvery every fn => exact ⟨grows_absent _ _ i (grows_call_every L s every fn) h, rfl⟩
  | SetGameTime t => exact ⟨h, rfl⟩

/-- Once a table object has left the schedule, no sequence of operations invokes it. -/
theorem run_absent (script : Script) (L : ObjLen) (ops : List Op) (s : LuaState) (i : Nat)
    (h : Absent i s) :
    Absent i (run script L ops s).1 ∧ firings i (run script L ops s).2 = [] := by
  induction ops generalizing s with
  | nil => exact ⟨h, rfl⟩
  | cons op ops ih =>
    obtain ⟨h1, h2⟩ := step_absent script L s op i h
    obtain ⟨h3, h4⟩ := ih _ h1
    refine ⟨h3, ?_⟩
    simp only [run, firings_append, h2, h4, List.append_nil]

theorem run_wf (script : Script) (L : ObjLen) (ops : List Op) (s : LuaState) (hwf : WF s) :
    WF (run script L ops s).1 := by
  induction ops generalizing s with
  | nil => exact hwf
  | cons op ops ih => exact ih _ (step_wf script L s op hwf)

theorem wf_init (t : LuaNumber) : WF ⟨t, none, 0, 0⟩ := by
  refine ⟨?_, ?_⟩
  · intro k e h
    simp [LuaState.entry, LuaState.timers, Table.gettable] at h
  · intro k k2 e e2 h
    simp [LuaState.entry, LuaState.timers, Table.gettable] at h

theorem reachable_wf (script : Script) (L : ObjLen) (s : LuaState)
    (h : Reachable script L s) : WF s := by
  induction h with
  | init t => exact wf_init t
  | step s op _ ih => exact step_wf script L s op ih

theorem firings_mem (i : Nat) (log : List Fired) (x : Fired) (h : x ∈ firings i log) :
    x ∈ log :=
  (List.mem_filter.1 h).1

/-- A stored entry that is not yet due keeps its key and value through the `Tick`, and no
invocation is made from its key. -/
theorem tick_not_due (script : Script) (L : ObjLen) (visits : List Nat) (s : LuaState) (k : Nat)
    (e : TimerEntry) (hk : s.entry k = some e) (hlt : ¬ e.at_ ≤ s.gameTime) :
    (Tick script L visits s).1.entry k = some e ∧
    ∀ r ∈ (Tick script L visits s).2, r.key ≠ k ∧ r.timer ≠ e := by
  have inv := tick_inv script L visits s
  refine ⟨inv.pending k e hk hlt, ?_⟩
  intro r hr
  refine ⟨?_, ?_⟩
  · intro hkey
    exact hlt (inv.keys r hr e (by rw [hkey]; exact hk))
  · intro heq
    have hdue := (inv.fired r hr).1
    rw [heq] at hdue
    exact hlt hdue

/-- The state a successful registration produces: one new key, everything else as before. -/
theorem register_effect (L : ObjLen) (s : LuaState) (e : TimerEntry) :
    ∃ k, s.entry k = none ∧
      (_finish_timer_create L { s with allocs := s.allocs + 1 } e).entry k = some e ∧
      ∀ j, j ≠ k → (_finish_timer_create L { s with allocs := s.allocs + 1 } e).entry j
        = s.entry j := by
  refine ⟨L.len s.timers + 1, free_key L s, ?_, ?_⟩
  · rw [finish_entry]
    have : ({ s with allocs := s.allocs + 1 } : LuaState).timers = s.timers := rfl
    simp [this]
  · intro j hj
    rw [finish_entry]
    have : ({ s with allocs := s.allocs + 1 } : LuaState).timers = s.timers := rfl
    rw [this]
    simp only [hj, if_false]
    rfl

/-! ## A due entry through a `Tick`, however often its key is yielded -/

theorem done_fate (now : LuaNumber) (k : Nat) (e : TimerEntry) (acc : LuaState × List Fired)
    (h : Done now k e acc) : Fate now k e acc := by
  obtain ⟨r, hfir, hout⟩ := h
  refine ⟨[], ⟨k, e, r⟩, by simpa using hfir, ⟨r, rfl⟩, ?_, ?_, hout⟩
  · intro x hx
    simp only [List.nil_append, List.mem_singleton] at hx
    subst hx
    exact ⟨rfl, Or.inl rfl⟩
  · intro x hx
    cases hx

theorem head_append_singleton (l : List Fired) (x y : Fired) (h : l.head? = some x) :
    (l ++ [y]).head? = some x := by
  cases l with
  | nil => cases h
  | cons a l => simpa using h

theorem fate_step (script : Script) (now : LuaNumber) (s : LuaState) (log : List Fired)
    (j k : Nat) (e : TimerEntry) (acc : LuaState × List Fired) (hwf : WF s)
    (htime : s.gameTime = now) (hf : Fate now k e (s, log))
    (hv : Visit script now s log j acc) : Fate now k e acc := by
  obtain ⟨rs, r, hfir, ⟨r0, hhead⟩, hall, hfalse, hout⟩ := hf
  simp only at hfir hout
  -- the table object is gone: whatever is invoked is another one
  have gone : ∀ (ej : TimerEntry) (s1 : LuaState) (v : Option TimerEntry) (r1 : LuaValue),
      (e.every = none ∨ lua_toboolean r.ret = true) → Absent e.id s →
      s.entry j = some ej → Grows s s1 → (∀ x, v = some x → x.id = ej.id) →
      Fate now k e (s1.settimer j v, log ++ [⟨j, ej, r1⟩]) := by
    intro ej s1 v r1 hc0 hab he hg hv
    have hne : ej.id ≠ e.id := hab.2 j ej he
    refine ⟨rs, r, ?_, ⟨r0, hhead⟩, hall, hfalse,
      Or.inl ⟨hc0, lt_of_lt_of_le hab.1 hg.allocs, ?_⟩⟩
    · simp [firings_append, hfir, firings_single, hne]
    · intro k2 x hx
      rw [entry_settimer] at hx
      by_cases h2 : k2 = j
      · simp only [h2, if_true] at hx
        rw [hv x hx]; exact hne
      · simp only [h2, if_false] at hx
        rcases hg.fresh k2 x hx with h | ⟨a, _, _⟩
        · exact hab.2 k2 x h
        · have := hab.1; omega
  -- the entry is stored under `k` and another key is visited
  have aside : ∀ (ej : TimerEntry) (s1 : LuaState) (v : Option TimerEntry) (r1 : LuaValue)
      (p : LuaNumber), e.every = some p → lua_toboolean r.ret = false →
      s.entry k = some { e with at_ := now + p } → j ≠ k →
      s.entry j = some ej → Grows s s1 →
      Fate now k e (s1.settimer j v, log ++ [⟨j, ej, r1⟩]) := by
    intro ej s1 v r1 p hev hc0 hk hjk he hg
    have hne : ej.id ≠ e.id := by
      intro hid
      exact hjk (hwf.2 j k ej _ he hk hid)
    refine ⟨rs, r, ?_, ⟨r0, hhead⟩, hall, hfalse, Or.inr ⟨p, hev, hc0, ?_⟩⟩
    · simp [firings_append, hfir, firings_single, hne]
    · simp only [entry_settimer, Ne.symm hjk, if_false]
      exact hg.keep k _ hk
  -- the entry is invoked once more from its key
  have again : ∀ (r1 : LuaValue) (p : LuaNumber), e.every = some p →
      lua_toboolean r.ret = false →
      firings e.id (log ++ [(⟨k, { e with at_ := now + p }, r1⟩ : Fired)])
          = (rs ++ [r]) ++ [(⟨k, { e with at_ := now + p }, r1⟩ : Fired)] ∧
      (∃ r0, ((rs ++ [r]) ++ [(⟨k, { e with at_ := now + p }, r1⟩ : Fired)]).head?
          = some ⟨k, e, r0⟩) ∧
      (∀ x ∈ (rs ++ [r]) ++ [(⟨k, { e with at_ := now + p }, r1⟩ : Fired)], x.key = k ∧
        (x.timer = e ∨ ∃ p, e.every = some p ∧ x.timer = { e with at_ := now + p })) ∧
      (∀ x ∈ rs ++ [r], lua_toboolean x.ret = false) := by
    intro r1 p hev hc0
    refine ⟨?_, ⟨r0, head_append_singleton _ _ _ hhead⟩, ?_, ?_⟩
    · simp [firings_append, hfir, firings_single]
    · intro x hx
      rcases List.mem_append.1 hx with hx | hx
      · exact hall x hx
      · simp only [List.mem_singleton] at hx
        subst hx
        exact ⟨rfl, Or.inr ⟨p, hev, rfl⟩⟩
    · intro x hx
      rcases List.mem_append.1 hx with hx | hx
      · exact hfalse x hx
      · simp only [List.mem_singleton] at hx
        subst hx
        exact hc0
  cases hv with
  | skip _ => exact ⟨rs, r, hfir, ⟨r0, hhead⟩, hall, hfalse, hout⟩
  | remove ej s1 r1 he hdue hg hr hc =>
    rcases hout with ⟨hc0, hab⟩ | ⟨p, hev, hc0, hk⟩
    · exact gone ej s1 none r1 hc0 hab he hg (by intro x hx; cases hx)
    · by_cases hjk : j = k
      · subst hjk
        rw [hk] at he
        cases he
        obtain ⟨h1, h2, h3, h4⟩ := again r1 p hev hc0
        refine ⟨rs ++ [r], _, h1, h2, h3, h4, Or.inl ⟨?_, ?_, ?_⟩⟩
        · rcases hc with hc | hc
          · exact Or.inl hc
          · exact Or.inr hc
        · exact lt_of_lt_of_le (hwf.1 j { e with at_ := now + p } hk) hg.allocs
        · intro k2 x hx hid
          rw [entry_settimer] at hx
          by_cases h2 : k2 = j
          · simp [h2] at hx
          · simp only [h2, if_false] at hx
            exact h2 ((hg.wf hwf).2 k2 j x _ hx (hg.keep j _ hk) hid)
      · exact aside ej s1 none r1 p hev hc0 hk hjk he hg
  | rearm ej s1 r1 q he hdue hg hr hev2 hc =>
    rcases hout with ⟨hc0, hab⟩ | ⟨p, hev, hc0, hk⟩
    · exact gone ej s1 _ r1 hc0 hab he hg (by intro x hx; cases hx; rfl)
    · by_cases hjk : j = k
      · subst hjk
        rw [hk] at he
        cases he
        have hqp : q = p := by
          have : e.every = some q := hev2
          rw [hev] at this
          cases this
          rfl
        subst hqp
        obtain ⟨h1, h2, h3, h4⟩ := again r1 q hev hc0
        refine ⟨rs ++ [r], _, h1, h2, h3, h4, Or.inr ⟨q, hev, hc, ?_⟩⟩
        simp [entry_settimer, hg.time, htime]
      · exact aside ej s1 _ r1 p hev hc0 hk hjk he hg

theorem fate_foldl (script : Script) (L : ObjLen) (s0 : LuaState) (visits : List Nat)
    (acc : LuaState × List Fired) (k : Nat) (e : TimerEntry) (hwf : WF s0)
    (inv : TickInv script s0 acc) (hf : Fate s0.gameTime k e acc) :
    Fate s0.gameTime k e (visits.foldl (tickEntry script L s0.gameTime) acc) := by
  induction visits generalizing acc with
  | nil => exact hf
  | cons j js ih =>
    rw [List.foldl_cons]
    have hv := tickEntry_visit script L s0.gameTime acc.1 acc.2 j
    exact ih _ (TickInv.step script s0 acc.1 acc.2 j _ inv hv)
      (fate_step script _ acc.1 acc.2 j k e _ (inv.wf hwf) inv.time hf hv)

theorem pend_foldl_fate (script : Script) (L : ObjLen) (s0 : LuaState) (visits : List Nat)
    (acc : LuaState × List Fired) (k : Nat) (e : TimerEntry) (hwf : WF s0)
    (inv : TickInv script s0 acc) (hp : Pend k e acc) (hdue : e.at_ ≤ s0.gameTime)
    (hk : k ∈ visits) :
    Fate s0.gameTime k e (visits.foldl (tickEntry script L s0.gameTime) acc) := by
  induction visits generalizing acc with
  | nil => cases hk
  | cons j js ih =>
    rw [List.foldl_cons]
    have hv := tickEntry_visit script L s0.gameTime acc.1 acc.2 j
    have inv2 := TickInv.step script s0 acc.1 acc.2 j _ inv hv
    by_cases hjk : j = k
    · subst hjk
      exact fate_foldl script L s0 js _ j e hwf inv2
        (done_fate _ _ _ _
          (pend_fire script _ acc.1 acc.2 j e _ (inv.wf hwf) inv.time hp hdue hv))
    · have hmem : k ∈ js := by
        rcases List.mem_cons.1 hk with h | h
        · exact absurd h.symm hjk
        · exact h
      exact ih _ inv2 (pend_step script _ acc.1 acc.2 j k e _ (inv.wf hwf) hp (Or.inr hjk) hv)
        hmem

/-- A stored entry that is due and whose key the traversal yields is invoked, from that key
only, and its last invocation decides whether it is removed or stays. -/
theorem tick_fate (script : Script) (L : ObjLen) (visits : List Nat) (s : LuaState) (k : Nat)
    (e : TimerEntry) (hwf : WF s) (hk : s.entry k = some e) (hdue : e.at_ ≤ s.gameTime)
    (hvis : k ∈ visits) : Fate s.gameTime k e (Tick script L visits s) := by
  rw [Tick_eq_foldl]
  exact pend_foldl_fate script L s visits _ k e hwf (TickInv.start script s)
    (pend_start s k e hk) hdue hvis

/-- Every value recorded for an invocation of `e`, or of `e` with a new due time, is what
the callback of `e` returned. -/
theorem fate_ret (script : Script) (L : ObjLen) (visits : List Nat) (s : LuaState)
    (e : TimerEntry) (now : LuaNumber) (x : Fired)
    (hx : x ∈ firings e.id (Tick script L visits s).2)
    (ht : x.timer = e ∨ ∃ p, e.every = some p ∧ x.timer = { e with at_ := now + p }) :
    ∃ n, x.ret = (script n e.callback).ret := by
  obtain ⟨n, hn⟩ := ((tick_inv script L visits s).fired _ (firings_mem _ _ _ hx)).2.1
  refine ⟨n, ?_⟩
  rcases ht with h | ⟨p, _, h⟩
  · rw [hn, h]
  · rw [hn, h]

/-! ## What is stored after a `Tick` -/

theorem settle_step (script : Script) (s0 s : LuaState) (log : List Fired) (j : Nat)
    (js : List Nat) (acc : LuaState × List Fired) (inv : TickInv script s0 (s, log))
    (h : Settled s0 (j :: js) s) (hv : Visit script s0.gameTime s log j acc) :
    Settled s0 js acc.1 := by
  have htime : s.gameTime = s0.gameTime := inv.time
  have others : ∀ (s1 : LuaState) (v : Option TimerEntry), Grows s s1 → s.entry j ≠ none →
      (∀ x, v = some x → ∃ p, x.every = some p ∧ x.at_ = s0.gameTime + p) →
      Settled s0 js (s1.settimer j v) := by
    intro s1 v hg hj hvv k e he
    rw [entry_settimer] at he
    by_cases hkj : k = j
    · simp only [hkj, if_true] at he
      exact Or.inr (Or.inl (hvv e he))
    · simp only [hkj, if_false] at he
      rcases hg.fresh k e he with h1 | ⟨_, _, c⟩
      · rcases h k e h1 with h2 | h2 | ⟨h2, h3⟩
        · exact Or.inl h2
        · exact Or.inr (Or.inl h2)
        · rcases List.mem_cons.1 h2 with h4 | h4
          · exact absurd h4 hkj
          · exact Or.inr (Or.inr ⟨h4, h3⟩)
      · rcases c with ⟨_, c⟩ | ⟨i, c1, _, c2⟩
        · left; rw [← htime]; exact c
        · right; left; exact ⟨i, c1, by rw [← htime]; exact c2⟩
  cases hv with
  | skip hs =>
    intro k e he
    simp only at he
    rcases h k e he with h2 | h2 | ⟨h2, h3⟩
    · exact Or.inl h2
    · exact Or.inr (Or.inl h2)
    · rcases List.mem_cons.1 h2 with h4 | h4
      · subst h4
        rcases hs with hs | ⟨x, hx, hlt⟩
        · rw [hs] at he; cases he
        · rw [hx] at he; cases he; exact Or.inl hlt
      · exact Or.inr (Or.inr ⟨h4, h3⟩)
  | remove e s1 r he hdue hg hr hc =>
    exact others s1 none hg (by rw [he]; exact fun hn => by cases hn)
      (by intro x hx; cases hx)
  | rearm e s1 r p he hdue hg hr hev hc =>
    refine others s1 _ hg (by rw [he]; exact fun hn => by cases hn) ?_
    intro x hx
    cases hx
    exact ⟨p, hev, by simp [hg.time, htime]⟩

theorem settle_foldl (script : Script) (L : ObjLen) (s0 : LuaState) (visits : List Nat)
    (acc : LuaState × List Fired) (inv : TickInv script s0 acc)
    (h : Settled s0 visits acc.1) :
    Settled s0 [] (visits.foldl (tickEntry script L s0.gameTime) acc).1 := by
  induction visits generalizing acc with
  | nil => exact h
  | cons j js ih =>
    rw [List.foldl_cons]
    have hv := tickEntry_visit script L s0.gameTime acc.1 acc.2 j
    exact ih _ (TickInv.step script s0 acc.1 acc.2 j _ inv hv)
      (settle_step script s0 acc.1 acc.2 j js _ inv h hv)

/-- After a `Tick` whose traversal yields every key that holds a due entry, an entry that
is still due is a repeating one, due at the sum of the game time and its interval. -/
theorem tick_settled (script : Script) (L : ObjLen) (visits : List Nat) (s : LuaState)
    (hall : ∀ k e, s.entry k = some e → e.at_ ≤ s.gameTime → k ∈ visits) :
    ∀ k e, (Tick script L visits s).1.entry k = some e →
      ¬ e.at_ ≤ s.gameTime ∨ ∃ p, e.every = some p ∧ e.at_ = s.gameTime + p := by
  have h0 : Settled s visits s := by
    intro k e he
    by_cases hdue : e.at_ ≤ s.gameTime
    · exact Or.inr (Or.inr ⟨hall k e he hdue, he⟩)
    · exact Or.inl hdue
  have h1 := settle_foldl script L s visits (s, []) (TickInv.start script s) h0
  rw [← Tick_eq_foldl] at h1
  intro k e he
  rcases h1 k e he with h2 | h2 | ⟨h2, _⟩
  · exact Or.inl h2
  · exact Or.inr h2
  · cases h2

/-- A `Tick` on a schedule in which nothing is due changes nothing and invokes nothing. -/
theorem tick_idle (script : Script) (L : ObjLen) (visits : List Nat) (s : LuaState)
    (h : ∀ k e, s.entry k = some e → ¬ e.at_ ≤ s.gameTime) :
    Tick script L visits s = (s, []) := by
  rw [Tick_eq_foldl]
  induction visits with
  | nil => rfl
  | cons j js ih =>
    have : tickEntry script L s.gameTime (s, []) j = (s, []) := by
      unfold tickEntry
      cases he : s.entry j with
      | none => rfl
      | some e =>
        have := h j e he
        simp [this]
    rw [List.foldl_cons, this]
    exact ih

/-! ## Table objects created during a `Tick` -/

theorem stable_start (s0 : LuaState) : Stable s0 (s0, []) := by
  refine ⟨?_, ?_⟩
  · intro r hr
    cases hr
  · intro r hr
    cases hr

/-- An entry created during the `Tick` that is due is what `Timer:CallEvery` stored, and
setting its due time again changes nothing. -/
theorem rearm_new_same (script : Script) (s0 s : LuaState) (log : List Fired)
    (inv : TickInv script s0 (s, log)) (hwf0 : WF s0) (j : Nat) (e : TimerEntry)
    (p : LuaNumber) (he : s.entry j = some e) (hev : e.every = some p)
    (hnew : s0.allocs ≤ e.id) : { e with at_ := s0.gameTime + p } = e := by
  rcases inv.origin j e he with ⟨e0, h0, h1, _⟩ | ⟨_, _, c⟩
  · have := hwf0.1 j e0 h0
    omega
  · rcases c with ⟨c, _⟩ | ⟨i, c1, _, c2⟩
    · rw [hev] at c; cases c
    · rw [hev] at c1
      cases c1
      cases e
      simp only at c2
      simp [c2]

theorem stable_step (script : Script) (s0 s : LuaState) (log : List Fired) (j : Nat)
    (acc : LuaState × List Fired) (inv : TickInv script s0 (s, log)) (hwf0 : WF s0)
    (hs : Stable s0 (s, log)) (hv : Visit script s0.gameTime s log j acc) :
    Stable s0 acc := by
  have hwf : WF s := inv.wf hwf0
  obtain ⟨hid, hst⟩ := hs
  simp only at hid hst
  -- a record of the log, old or just added, against an entry stored after the callback ran
  have link : ∀ (ej : TimerEntry) (s1 : LuaState) (r1 : LuaValue), s.entry j = some ej →
      Grows s s1 → ∀ r ∈ log ++ [(⟨j, ej, r1⟩ : Fired)], s0.allocs ≤ r.timer.id →
      (r.timer.id < s.allocs) ∧
      (∀ e, s.entry j = some e → e.id = r.timer.id → e = r.timer) ∧
      ∀ k e, k ≠ j → s1.entry k = some e → e.id = r.timer.id → e = r.timer := by
    intro ej s1 r1 he hg r hr hnew
    have hlt : r.timer.id < s.allocs := by
      rcases List.mem_append.1 hr with h | h
      · exact hid r h
      · simp only [List.mem_singleton] at h
        subst h
        exact hwf.1 j ej he
    refine ⟨hlt, ?_, ?_⟩
    · intro e hje heq
      rcases List.mem_append.1 hr with h | h
      · exact hst r h hnew j e hje heq
      · simp only [List.mem_singleton] at h
        subst h
        rw [he] at hje
        cases hje
        rfl
    · intro k e hkj hk heq
      rcases hg.fresh k e hk with h1 | ⟨a, _, _⟩
      · rcases List.mem_append.1 hr with h | h
        · exact hst r h hnew k e h1 heq
        · simp only [List.mem_singleton] at h
          subst h
          exact absurd (hwf.2 k j e ej h1 he heq) hkj
      · omega
  cases hv with
  | skip _ => exact ⟨hid, hst⟩
  | remove ej s1 r1 he hdue hg hr hc =>
    refine ⟨?_, ?_⟩
    · intro r hr2
      have : r.timer.id < s.allocs := by
        rcases List.mem_append.1 hr2 with h | h
        · exact hid r h
        · simp only [List.mem_singleton] at h
          subst h
          exact hwf.1 j ej he
      exact lt_of_lt_of_le this hg.allocs
    · intro r hr2 hnew k e hk heq
      rw [entry_settimer] at hk
      by_cases hkj : k = j
      · simp [hkj] at hk
      · simp only [hkj, if_false] at hk
        exact (link ej s1 r1 he hg r hr2 hnew).2.2 k e hkj hk heq
  | rearm ej s1 r1 p he hdue hg hr hev hc =>
    have htime : s1.gameTime = s0.gameTime := by rw [hg.time]; exact inv.time
    refine ⟨?_, ?_⟩
    · intro r hr2
      have : r.timer.id < s.allocs := by
        rcases List.mem_append.1 hr2 with h | h
        · exact hid r h
        · simp only [List.mem_singleton] at h
          subst h
          exact hwf.1 j ej he
      exact lt_of_lt_of_le this hg.allocs
    · intro r hr2 hnew k e hk heq
      rw [entry_settimer] at hk
      by_cases hkj : k = j
      · simp only [hkj, if_true, Option.some.injEq] at hk
        subst hk
        have h1 := (link ej s1 r1 he hg r hr2 hnew).2.1 ej he heq
        have h2 : s0.allocs ≤ ej.id := by rw [h1]; exact hnew
        rw [htime, rearm_new_same script s0 s log inv hwf0 j ej p he hev h2]
        exact h1
      · simp only [hkj, if_false] at hk
        exact (link ej s1 r1 he hg r hr2 hnew).2.2 k e hkj hk heq

theorem tick_stable (script : Script) (L : ObjLen) (visits : List Nat) (s : LuaState)
    (hwf : WF s) : Stable s (Tick script L visits s) := by
  rw [Tick_eq_foldl]
  have key : ∀ (acc : LuaState × List Fired), TickInv script s acc → Stable s acc →
      Stable s (visits.foldl (tickEntry script L s.gameTime) acc) := by
    induction visits with
    | nil => exact fun _ _ h => h
    | cons j js ih =>
      intro acc inv hs
      rw [List.foldl_cons]
      have hv := tickEntry_visit script L s.gameTime acc.1 acc.2 j
      exact ih _ (TickInv.step script s acc.1 acc.2 j _ inv hv)
        (stable_step script s acc.1 acc.2 j _ inv hwf hs hv)
  exact key _ (TickInv.start script s) (stable_start s)

/-- An entry created during the `Tick` that is not due when the `Tick` ends was not invoked
in it. -/
theorem tick_new_not_fired (script : Script) (L : ObjLen) (visits : List Nat) (s : LuaState)
    (hwf : WF s) (k : Nat) (e : TimerEntry)
    (hk : (Tick script L visits s).1.entry k = some e) (hnew : s.allocs ≤ e.id)
    (hnd : ¬ e.at_ ≤ s.gameTime) : firings e.id (Tick script L visits s).2 = [] := by
  apply firings_eq_nil
  intro r hr hid
  have h := (tick_stable script L visits s hwf).2 r hr (by rw [hid]; exact hnew) k e hk hid.symm
  have hdue := ((tick_inv script L visits s).fired r hr).1
  rw [← h] at hdue
  exact hnd hdue

/-! ## Evaluating one pass of the loop body -/

theorem tickEntry_log (script : Script) (L : ObjLen) (now : LuaNumber) (s : LuaState)
    (log : List Fired) (k : Nat) (e : TimerEntry) (hk : s.entry k = some e)
    (hdue : e.at_ ≤ now) :
    (tickEntry script L now (s, log) k).2
      = log ++ [⟨k, e, (script s.calls e.callback).ret⟩] := by
  unfold tickEntry
  simp only [hk, hdue, if_true]
  cases e.every with
  | none => rfl
  | some p =>
    simp only
    split <;> rfl

theorem tickEntry_remove (script : Script) (L : ObjLen) (now : LuaNumber) (s : LuaState)
    (log : List Fired) (k : Nat) (e : TimerEntry) (hk : s.entry k = some e)
    (hdue : e.at_ ≤ now)
    (hc : e.every = none ∨ lua_toboolean (script s.calls e.callback).ret = true) :
    (tickEntry script L now (s, log) k).1
      = (serve L (script s.calls e.callback).regs { s with calls := s.calls + 1 }).settimer
          k none := by
  unfold tickEntry
  simp only [hk, hdue, if_true]
  cases hev : e.every with
  | none => rfl
  | some p =>
    have hc2 : lua_toboolean (lua_call script L s e.callback).2 = true := by
      rcases hc with hc | hc
      · rw [hev] at hc; cases hc
      · exact hc
    simp only [hc2, if_true]
    rfl

theorem tickEntry_rearm (script : Script) (L : ObjLen) (now : LuaNumber) (s : LuaState)
    (log : List Fired) (k : Nat) (e : TimerEntry) (p : LuaNumber)
    (hk : s.entry k = some e) (hdue : e.at_ ≤ now) (hev : e.every = some p)
    (hc : lua_toboolean (script s.calls e.callback).ret = false) :
    (tickEntry script L now (s, log) k).1
      = (serve L (script s.calls e.callback).regs { s with calls := s.calls + 1 }).settimer
          k (some { e with at_ := s.gameTime + p }) := by
  have hg := grows_lua_call script L s e.callback
  have hc2 : lua_toboolean (lua_call script L s e.callback).2 = false := hc
  unfold tickEntry
  simp only [hk, hdue, if_true, hev, hc2, Bool.false_eq_true, if_false, hg.time]
  rfl

/-! ## Two sums of doubles used in the examples -/

theorem tiny_pos : (0 : LuaNumber) < .fin (1 / 1073741824) := by
  have h : ((0 : ℕ) : ℚ) < 1 / 1073741824 := by norm_num
  exact decide_eq_true h

theorem tiny_guard : ¬ (LuaNumber.fin (1 / 1073741824) ≤ 0) :=
  LuaNumber.not_le_of_lt tiny_pos

/-- The double sum `10 + 2` is `12`. -/
theorem ten_plus_two : (10 : LuaNumber) + 2 = 12 := by
  have hx : (((10 : ℕ) : ℚ)) + ((2 : ℕ) : ℚ) = 12 := by norm_num
  have habs : |(12 : ℚ)| = 12 := abs_of_pos (by norm_num)
  have hlog : Int.log 2 (12 : ℚ) = 3 :=
    int_log_eq _ 3 (by norm_num) (by norm_num) (by norm_num)
  have hulp : (2 : ℚ) ^ (max (3 : ℤ) (-1022) - 52) = 1 / 562949953421312 := by
    norm_num [zpow_neg]
  have hfloor : ⌊(12 : ℚ) / (1 / 562949953421312)⌋ = 6755399441055744 := by
    rw [Int.floor_eq_iff]
    constructor <;> norm_num
  have hround : roundHalfEven ((12 : ℚ) / (1 / 562949953421312)) = 6755399441055744 := by
    unfold roundHalfEven
    rw [hfloor]
    norm_num
  show LuaNumber.add (.fin _) (.fin _) = .fin _
  unfold LuaNumber.add roundDouble
  simp only [hx, habs, hlog, hulp, hround]
  norm_num

theorem ten_plus_two_later : ¬ ((10 : LuaNumber) + 2 ≤ 10) := by
  rw [ten_plus_two]
  decide

/-- A due repeating entry whose key the traversal yields: its invocations in the `Tick`, and
what is stored afterwards. -/
theorem tick_repeat (script : Script) (L : ObjLen) (visits : List Nat) (s : LuaState)
    (k : Nat) (e : TimerEntry) (p : LuaNumber) (hwf : WF s) (hk : s.entry k = some e)
    (hev : e.every = some p) (hdue : e.at_ ≤ s.gameTime) (hvis : k ∈ visits) :
    ∃ rs r, firings e.id (Tick script L visits s).2 = rs ++ [r] ∧
      (∃ r0, (rs ++ [r]).head? = some ⟨k, e, r0⟩) ∧
      (∀ x ∈ rs ++ [r], x.key = k ∧
        (x.timer = e ∨ x.timer = ⟨e.id, s.gameTime + p, some p, e.callback⟩) ∧
        ∃ n, x.ret = (script n e.callback).ret) ∧
      (∀ x ∈ rs, lua_toboolean x.ret = false) ∧
      ((lua_toboolean r.ret = true ∧ Absent e.id (Tick script L visits s).1) ∨
       (lua_toboolean r.ret = false ∧
        (Tick script L visits s).1.entry k
          = some ⟨e.id, s.gameTime + p, some p, e.callback⟩)) ∧
      (¬ s.gameTime + p ≤ s.gameTime →
        firings e.id (Tick script L visits s).2 = [⟨k, e, r.ret⟩]) := by
  obtain ⟨rs, r, hfir, hhead, hall, hfalse, hout⟩ :=
    tick_fate script L visits s k e hwf hk hdue hvis
  have hre : ∀ q, e.every = some q →
      ({ e with at_ := s.gameTime + q } : TimerEntry)
        = ⟨e.id, s.gameTime + p, some p, e.callback⟩ := by
    intro q hq
    rw [hev] at hq
    cases hq
    rw [hev]
  refine ⟨rs, r, hfir, hhead, ?_, hfalse, ?_, ?_⟩
  · intro x hx
    obtain ⟨h1, h2⟩ := hall x hx
    refine ⟨h1, ?_, fate_ret script L visits s e s.gameTime x (by rw [hfir]; exact hx) h2⟩
    rcases h2 with h2 | ⟨q, hq, h2⟩
    · exact Or.inl h2
    · exact Or.inr (by rw [h2]; exact hre q hq)
  · rcases hout with ⟨hc, hab⟩ | ⟨q, hq, hc, hent⟩
    · rcases hc with hc | hc
      · rw [hev] at hc; cases hc
      · exact Or.inl ⟨hc, hab⟩
    · exact Or.inr ⟨hc, by rw [hent]; exact congrArg some (hre q hq)⟩
  · intro honce
    have honce2 : ∀ q, e.every = some q → ¬ s.gameTime + q ≤ s.gameTime := by
      intro q hq
      rw [hev] at hq
      cases hq
      exact honce
    obtain ⟨r1, hr1, _⟩ := tick_due script L visits s k e hwf honce2 hk hdue hvis
    rw [hr1] at hfir
    have hlen : rs = [] := by
      cases rs with
      | nil => rfl
      | cons a rs =>
        have := congrArg List.length hfir
        simp at this
    subst hlen
    simp only [List.nil_append, List.cons.injEq, and_true] at hfir
    rw [hr1, ← hfir]

/-! ## The claims -/

/-- C3 (cancellation by returning true).  A stored repeating entry (interval `p`) that is
due and whose key `lua_next` yields is invoked in the `Tick`, from that key only: `rs` lists
its invocations before the last one `r`.  When the last invocation returned a true value
the entry is removed in that `Tick` and no later sequence of operations ever invokes it;
every invocation before it returned a false value and kept the entry scheduled; when the
last invocation returned a false value the entry stays scheduled (due at `now + p`) in a
well-formed schedule, ready for its next firing.  When `now + p` is above `now` the entry is
invoked exactly once in the `Tick`. -/
theorem C3_cancel_by_returning_true (script : Script) (L : ObjLen) (visits : List Nat)
    (s : LuaState) (k : Nat) (e : TimerEntry) (p : LuaNumber) (hwf : WF s)
    (hk : s.entry k = some e) (hev : e.every = some p)
    (hdue : e.at_ ≤ s.gameTime) (hvis : k ∈ visits) :
    ∃ rs r, firings e.id (Tick script L visits s).2 = rs ++ [r] ∧
      (∃ r0, (rs ++ [r]).head? = some ⟨k, e, r0⟩) ∧
      (∀ x ∈ rs ++ [r], x.key = k ∧
        (x.timer = e ∨ x.timer = ⟨e.id, s.gameTime + p, some p, e.callback⟩) ∧
        ∃ n, x.ret = (script n e.callback).ret) ∧
      (∀ x ∈ rs, lua_toboolean x.ret = false) ∧
      (lua_toboolean r.ret = true →
        Absent e.id (Tick script L visits s).1 ∧
        ∀ ops : List Op,
          Absent e.id (run script L ops (Tick script L visits s).1).1 ∧
          firings e.id (run script L ops (Tick script L visits s).1).2 = []) ∧
      (lua_toboolean r.ret = false →
        WF (Tick script L visits s).1 ∧
        (Tick script L visits s).1.entry k
          = some ⟨e.id, s.gameTime + p, some p, e.callback⟩) ∧
      (¬ s.gameTime + p ≤ s.gameTime →
        firings e.id (Tick script L visits s).2 = [⟨k, e, r.ret⟩]) := by
  obtain ⟨rs, r, h1, h2, h3, h4, h5, h6⟩ :=
    tick_repeat script L visits s k e p hwf hk hev hdue hvis
  refine ⟨rs, r, h1, h2, h3, h4, ?_, ?_, h6⟩
  · intro htrue
    rcases h5 with ⟨_, hab⟩ | ⟨hc, _⟩
    · exact ⟨hab, fun ops => run_absent script L ops _ _ hab⟩
    · rw [htrue] at hc; cases hc
  · intro hfalse
    refine ⟨tick_wf script L visits s hwf, ?_⟩
    rcases h5 with ⟨hc, _⟩ | ⟨_, hent⟩
    · rw [hfalse] at hc; cases hc
    · exact hent

/-- C3 at a concrete input: a due `CallEvery(2, f)` entry whose callback returns `true`. -/
theorem C3_cancel_witness :
    WF ⟨4, some [(1, ⟨0, 4, some 2, 7⟩)], 1, 1⟩ ∧
    (⟨4, some [(1, ⟨0, 4, some 2, 7⟩)], 1, 1⟩ : LuaState).entry 1 = some ⟨0, 4, some 2, 7⟩ ∧
    (4 : LuaNumber) ≤ 4 ∧ 1 ∈ [1] ∧
    ∃ rs r, firings 0 (Tick (fun _ _ => ⟨[], .boolean true⟩) maxKeyLen [1]
          ⟨4, some [(1, ⟨0, 4, some 2, 7⟩)], 1, 1⟩).2 = rs ++ [r] :=
  ⟨wf_of_list _ (by decide) (by decide), by decide, by decide, by decide,
    (C3_cancel_by_returning_true (fun _ _ => ⟨[], .boolean true⟩) maxKeyLen [1]
      ⟨4, some [(1, ⟨0, 4, some 2, 7⟩)], 1, 1⟩ 1 ⟨0, 4, some 2, 7⟩ 2
      (wf_of_list _ (by decide) (by decide)) (by decide) rfl (by decide)
      (by decide)).imp (fun _ h => h.imp (fun _ h2 => h2.1))⟩

/-- C4 (no registration in the past).  `Timer:CallAt(t, f)` with `t ≤ now` raises
"Specified time is in the past" and leaves the state exactly as it was; with `t > now` it
does not fail. -/
theorem C4_no_past_registration (L : ObjLen) (s : LuaState) (t : LuaNumber) (f : Callback) :
    (t ≤ s.gameTime →
      l_timer_call_at L s t f = (.error "Specified time is in the past", s)) ∧
    (s.gameTime < t → (l_timer_call_at L s t f).1 = .ok ()) := by
  refine ⟨?_, ?_⟩
  · intro h
    simp [l_timer_call_at, h]
  · intro h
    simp [l_timer_call_at, LuaNumber.not_le_of_lt h]

/-- C5 (non-positive interval rejected).  `Timer:CallEvery(i, f)` with `i ≤ 0` raises
"Specified interval must be greater than zero" and leaves the state exactly as it was; with
`i > 0` it does not fail. -/
theorem C5_non_positive_interval_rejected (L : ObjLen) (s : LuaState) (i : LuaNumber)
    (f : Callback) :
    (i ≤ 0 →
      l_timer_call_every L s i f
        = (.error "Specified interval must be greater than zero", s)) ∧
    (0 < i → (l_timer_call_every L s i f).1 = .ok ()) := by
  refine ⟨?_, ?_⟩
  · intro h
    simp [l_timer_call_every, h]
  · intro h
    simp [l_timer_call_every, LuaNumber.not_le_of_lt h]

/-- C6 as stated fails: with the game time `2 ^ 27`, `Timer:CallEvery(2 ^ -30, f)` is
accepted (the interval is positive) and the sum of line 221 is `2 ^ 27` again, so the entry
is stored with the game time itself as its due time, and a `Tick` at registration time
invokes `f`. -/
theorem C6_due_at_registration_time :
    (0 : LuaNumber) < .fin (1 / 1073741824) ∧
    l_timer_call_every maxKeyLen ⟨.fin 134217728, none, 0, 0⟩ (.fin (1 / 1073741824)) 7
      = (.ok (), ⟨.fin 134217728,
          some [(1, ⟨0, .fin 134217728, some (.fin (1 / 1073741824)), 7⟩)], 2, 0⟩) ∧
    (Tick (fun _ _ => ⟨[], .nil⟩) maxKeyLen [1]
        (l_timer_call_every maxKeyLen ⟨.fin 134217728, none, 0, 0⟩
          (.fin (1 / 1073741824)) 7).2).2
      = [⟨1, ⟨0, .fin 134217728, some (.fin (1 / 1073741824)), 7⟩, .nil⟩] := by
  have hreg : l_timer_call_every maxKeyLen ⟨.fin 134217728, none, 0, 0⟩
      (.fin (1 / 1073741824)) 7
      = (.ok (), ⟨.fin 134217728,
          some [(1, ⟨0, .fin 134217728, some (.fin (1 / 1073741824)), 7⟩)], 2, 0⟩) := by
    rw [l_timer_call_every, if_neg tiny_guard]
    show (Except.ok (), LuaState.mk _ (some [(1, TimerEntry.mk 0
      (LuaNumber.fin 134217728 + .fin (1 / 1073741824)) _ 7)]) 2 0) = _
    rw [absorb]
  refine ⟨tiny_pos, hreg, ?_⟩
  rw [hreg, Tick_eq_foldl, List.foldl_cons, List.foldl_nil]
  exact tickEntry_log _ _ _ _ _ 1 _ rfl (by decide)

/-- C6, amended.  With the clock at `now` and `i > 0`, `Timer:CallEvery(i, f)` succeeds and
adds exactly one entry, under a key that was free: a new table object whose due time is the
sum `now + i` computed in doubles, with interval `i` and callback `f`; every other key and
the clock are as before.  Any `Tick` at a game time at which that due time is not reached
leaves the entry stored and makes no invocation from its key; so the entry does not fire at
registration time provided the sum is above `now` (it is not when `i` is less than half the
distance between `now` and the next double). -/
theorem C6_call_every_registers (script : Script) (L : ObjLen) (s : LuaState) (i : LuaNumber)
    (f : Callback) (hi : 0 < i) :
    (l_timer_call_every L s i f).1 = .ok () ∧
    (l_timer_call_every L s i f).2.gameTime = s.gameTime ∧
    ∃ k, s.entry k = none ∧
      (l_timer_call_every L s i f).2.entry k = some ⟨s.allocs, s.gameTime + i, some i, f⟩ ∧
      (∀ j, j ≠ k → (l_timer_call_every L s i f).2.entry j = s.entry j) ∧
      (∀ (s2 : LuaState) (visits : List Nat),
        s2.entry k = some ⟨s.allocs, s.gameTime + i, some i, f⟩ →
        ¬ s.gameTime + i ≤ s2.gameTime →
        (Tick script L visits s2).1.entry k = some ⟨s.allocs, s.gameTime + i, some i, f⟩ ∧
        ∀ r ∈ (Tick script L visits s2).2, r.key ≠ k) := by
  have hres : l_timer_call_every L s i f
      = (.ok (), _finish_timer_create L { s with allocs := s.allocs + 1 }
          ⟨s.allocs, s.gameTime + i, some i, f⟩) := by
    simp [l_timer_call_every, LuaNumber.not_le_of_lt hi]
  obtain ⟨k, hfree, hk, hother⟩ :=
    register_effect L s ⟨s.allocs, s.gameTime + i, some i, f⟩
  rw [hres]
  refine ⟨rfl, finish_gameTime _ _ _, k, hfree, hk, hother, ?_⟩
  intro s2 visits hk2 hlt
  have h := tick_not_due script L visits s2 k _ hk2 hlt
  exact ⟨h.1, fun r hr => (h.2 r hr).1⟩

/-- C6 amended, at a concrete input: clock 10, empty registry, `Timer:CallEvery(2, f)`. -/
theorem C6_call_every_witness :
    (0 : LuaNumber) < 2 ∧ (l_timer_call_every maxKeyLen ⟨10, none, 0, 0⟩ 2 7).1 = .ok () :=
  ⟨by decide,
    (C6_call_every_registers (fun _ _ => ⟨[], .nil⟩) maxKeyLen ⟨10, none, 0, 0⟩ 2 7
      (by decide)).1⟩

/-- C7 (nothing fires early, pending entries are untouched).  For every schedule, every
behaviour of the callbacks and every traversal order, an entry stored under `k` that is not
due (the test `at <= now` of line 29 is false, as for every due time above the game time) is
stored under `k` unchanged after the `Tick`, and no invocation is made from key `k` or of an
entry equal to it; every invocation the `Tick` makes is of an entry whose due time is at
most the game time: one that descends from an entry stored, already due, at the start of the
`Tick` under the key it is invoked from, or one that `Timer:CallEvery` created during the
`Tick` with a due time `now + i` that is not above the game time. -/
theorem C7_nothing_fires_early (script : Script) (L : ObjLen) (visits : List Nat)
    (s : LuaState) (k : Nat) (e : TimerEntry) (hk : s.entry k = some e)
    (hlt : ¬ e.at_ ≤ s.gameTime) :
    (Tick script L visits s).1.entry k = some e ∧
    (∀ r ∈ (Tick script L visits s).2, r.key ≠ k ∧ r.timer ≠ e) ∧
    (∀ r ∈ (Tick script L visits s).2, r.timer.at_ ≤ s.gameTime ∧
      ((∃ e0, s.entry r.key = some e0 ∧ e0.at_ ≤ s.gameTime ∧ e0.id = r.timer.id ∧
          e0.every = r.timer.every ∧ e0.callback = r.timer.callback) ∨
       (s.allocs ≤ r.timer.id ∧
          ∃ i, r.timer.every = some i ∧ r.timer.at_ = s.gameTime + i))) := by
  have h := tick_not_due script L visits s k e hk hlt
  refine ⟨h.1, h.2, ?_⟩
  intro r hr
  obtain ⟨h1, _, h3⟩ := (tick_inv script L visits s).fired r hr
  refine ⟨h1, ?_⟩
  rcases h3 with h3 | ⟨a, i, b, _, c⟩
  · exact Or.inl h3
  · exact Or.inr ⟨a, i, b, c⟩

/-- C7 at a concrete input: an entry due at 12, `Tick` at game time 10. -/
theorem C7_nothing_fires_early_witness :
    (⟨10, some [(1, ⟨0, 12, none, 7⟩)], 1, 0⟩ : LuaState).entry 1 = some ⟨0, 12, none, 7⟩ ∧
    ¬ ((12 : LuaNumber) ≤ 10) ∧
    (Tick (fun _ _ => ⟨[], .nil⟩) maxKeyLen [1]
      ⟨10, some [(1, ⟨0, 12, none, 7⟩)], 1, 0⟩).1.entry 1 = some ⟨0, 12, none, 7⟩ :=
  ⟨by decide, by decide,
    (C7_nothing_fires_early (fun _ _ => ⟨[], .nil⟩) maxKeyLen [1]
      ⟨10, some [(1, ⟨0, 12, none, 7⟩)], 1, 0⟩ 1 ⟨0, 12, none, 7⟩ (by decide)
      (by decide)).1⟩

/-- C8 as stated fails.  The schedule holds one due entry under key 1 (array part of the
table); its callback calls `Timer:CallEvery(2 ^ -30, g)` at the game time `2 ^ 27`.  The new
entry gets key 2 (`lua_objlen` is 1) and the due time `2 ^ 27 + 2 ^ -30`, which in doubles
is `2 ^ 27`, the game time.  The table grows its array part to two slots and `lua_next`
yields key 2 after key 1: the entry created during the `Tick` (table object 2) is due, and
`g` is invoked within the same `Tick`. -/
theorem C8_new_repeating_entry_fires :
    (Tick (fun _ f => if f = 7 then ⟨[.CallEvery (.fin (1 / 1073741824)) 8], .nil⟩
            else ⟨[], .nil⟩) maxKeyLen [1, 2]
        ⟨.fin 134217728, some [(1, ⟨0, .fin 134217728, none, 7⟩)], 2, 0⟩).2
      = [⟨1, ⟨0, .fin 134217728, none, 7⟩, .nil⟩,
         ⟨2, ⟨2, .fin 134217728, some (.fin (1 / 1073741824)), 8⟩, .nil⟩] := by
  have hreg : l_timer_call_every maxKeyLen
      ⟨.fin 134217728, some [(1, ⟨0, .fin 134217728, none, 7⟩)], 2, 1⟩
      (.fin (1 / 1073741824)) 8
      = (.ok (), ⟨.fin 134217728,
          some [(2, ⟨2, .fin 134217728, some (.fin (1 / 1073741824)), 8⟩),
            (1, ⟨0, .fin 134217728, none, 7⟩)], 3, 1⟩) := by
    rw [l_timer_call_every, if_neg tiny_guard]
    show (Except.ok (), LuaState.mk _ (some [(2, TimerEntry.mk 2
      (LuaNumber.fin 134217728 + .fin (1 / 1073741824)) _ 8), _]) 3 1) = _
    rw [absorb]
  have h1 : tickEntry (fun _ f => if f = 7 then ⟨[.CallEvery (.fin (1 / 1073741824)) 8], .nil⟩
        else ⟨[], .nil⟩) maxKeyLen (.fin 134217728)
      (⟨.fin 134217728, some [(1, ⟨0, .fin 134217728, none, 7⟩)], 2, 0⟩, []) 1
      = (⟨.fin 134217728,
          some [(2, ⟨2, .fin 134217728, some (.fin (1 / 1073741824)), 8⟩)], 3, 1⟩,
        [⟨1, ⟨0, .fin 134217728, none, 7⟩, .nil⟩]) := by
    refine Prod.ext ?_ ?_
    · rw [tickEntry_remove (fun _ f => if f = 7 then
          ⟨[.CallEvery (.fin (1 / 1073741824)) 8], .nil⟩ else ⟨[], .nil⟩) maxKeyLen
        (.fin 134217728) ⟨.fin 134217728, some [(1, ⟨0, .fin 134217728, none, 7⟩)], 2, 0⟩
        [] 1 ⟨0, .fin 134217728, none, 7⟩ rfl (by decide) (Or.inl rfl)]
      show (l_timer_call_every maxKeyLen
        ⟨.fin 134217728, some [(1, ⟨0, .fin 134217728, none, 7⟩)], 2, 1⟩
        (.fin (1 / 1073741824)) 8).2.settimer 1 none = _
      rw [hreg]
      rfl
    · exact tickEntry_log _ _ _ _ _ 1 _ rfl (by decide)
  rw [Tick_eq_foldl, List.foldl_cons, List.foldl_cons, List.foldl_nil]
  show (tickEntry _ _ (LuaNumber.fin 134217728) (tickEntry _ _ (LuaNumber.fin 134217728)
    (_, []) 1) 2).2 = _
  rw [h1]
  exact tickEntry_log _ _ _ _ _ 2 _ rfl (by decide)

/-- C8, amended.  For every behaviour of the callbacks, every admissible `lua_objlen` and
every traversal order (also one that visits the keys taken by the new entries): every
invocation made by the `Tick` is either of a table object that existed before the `Tick`
began and was stored then under the key it is invoked from, or of an entry that
`Timer:CallEvery` created during the `Tick` with a due time `now + i` that, computed in
doubles, is not above `now`.  Every entry in the schedule afterwards either sits under the
key of the entry it descends from or was created during the `Tick`; an entry created during
the `Tick` that is not due at `now` (every entry `Timer:CallAt` created, and an entry
`Timer:CallEvery` created unless `now + i` is not above `now`) is not among the invocations,
and after the `Tick` it is not invoked by any `Tick` at a game time at which it is not
due. -/
theorem C8_reentrant_registration (script : Script) (L : ObjLen) (visits : List Nat)
    (s : LuaState) (hwf : WF s) :
    (∀ r ∈ (Tick script L visits s).2,
      (r.timer.id < s.allocs ∧
        ∃ e0, s.entry r.key = some e0 ∧ e0.id = r.timer.id ∧
          e0.callback = r.timer.callback) ∨
      (s.allocs ≤ r.timer.id ∧
        ∃ i, r.timer.every = some i ∧ r.timer.at_ = s.gameTime + i ∧
          s.gameTime + i ≤ s.gameTime)) ∧
    (∀ k e, (Tick script L visits s).1.entry k = some e →
      (e.id < s.allocs ∧ ∃ e0, s.entry k = some e0 ∧ e0.id = e.id) ∨
      (s.allocs ≤ e.id ∧
        ((e.every = none ∧ ¬ e.at_ ≤ s.gameTime) ∨
          (∃ i, e.every = some i ∧ e.at_ = s.gameTime + i)) ∧
        (¬ e.at_ ≤ s.gameTime → firings e.id (Tick script L visits s).2 = []) ∧
        ∀ (s2 : LuaState) (visits2 : List Nat), s2.entry k = some e →
          ¬ e.at_ ≤ s2.gameTime →
          (Tick script L visits2 s2).1.entry k = some e ∧
          ∀ r ∈ (Tick script L visits2 s2).2, r.key ≠ k)) := by
  have inv := tick_inv script L visits s
  refine ⟨?_, ?_⟩
  · intro r hr
    obtain ⟨hdue, _, h3⟩ := inv.fired r hr
    rcases h3 with ⟨e0, h0, _, h1, _, h3⟩ | ⟨a, i, b, _, c⟩
    · exact Or.inl ⟨by rw [← h1]; exact hwf.1 _ e0 h0, e0, h0, h1, h3⟩
    · exact Or.inr ⟨a, i, b, c, by rw [← c]; exact hdue⟩
  · intro k e hk
    rcases inv.origin k e hk with ⟨e0, h0, h1, _⟩ | ⟨a, _, c⟩
    · exact Or.inl ⟨by rw [← h1]; exact hwf.1 _ e0 h0, e0, h0, h1⟩
    · refine Or.inr ⟨a, ?_, ?_, ?_⟩
      · rcases c with c | ⟨i, c1, _, c2⟩
        · exact Or.inl c
        · exact Or.inr ⟨i, c1, c2⟩
      · intro hnd
        exact tick_new_not_fired script L visits s hwf k e hk a hnd
      · intro s2 visits2 hk2 hlt
        have h := tick_not_due script L visits2 s2 k e hk2 hlt
        exact ⟨h.1, fun r hr => (h.2 r hr).1⟩

/-- C8 amended, at a concrete input: a due one-shot whose callback calls
`Timer:CallAt(now + 1, g)`, with a traversal that goes on to the new key. -/
theorem C8_reentrant_witness :
    WF ⟨10, some [(1, ⟨0, 5, none, 7⟩)], 2, 0⟩ ∧
    ∀ r ∈ (Tick (fun _ _ => ⟨[.CallAt 11 8], .nil⟩) maxKeyLen [1, 2]
        ⟨10, some [(1, ⟨0, 5, none, 7⟩)], 2, 0⟩).2,
      (r.timer.id < 2 ∧
        ∃ e0, (⟨10, some [(1, ⟨0, 5, none, 7⟩)], 2, 0⟩ : LuaState).entry r.key = some e0 ∧
          e0.id = r.timer.id ∧ e0.callback = r.timer.callback) ∨
      (2 ≤ r.timer.id ∧
        ∃ i, r.timer.every = some i ∧ r.timer.at_ = 10 + i ∧ (10 : LuaNumber) + i ≤ 10) :=
  ⟨wf_of_list _ (by decide) (by decide),
    (C8_reentrant_registration (fun _ _ => ⟨[.CallAt 11 8], .nil⟩)
      maxKeyLen [1, 2] ⟨10, some [(1, ⟨0, 5, none, 7⟩)], 2, 0⟩
      (wf_of_list _ (by decide) (by decide))).1⟩

/-- C9 as stated fails: a due repeating entry whose callback returns the number `0` is
removed (`lua_toboolean` of a number is true), whereas with the result `false` the same
entry stays stored. -/
theorem C9_number_result_cancels :
    lua_toboolean (.number 0) = true ∧
    (Tick (fun _ _ => ⟨[], .number 0⟩) maxKeyLen [1]
      ⟨10, some [(1, ⟨0, 2, some 2, 7⟩)], 1, 0⟩).1.entry 1 = none ∧
    ((Tick (fun _ _ => ⟨[], .boolean false⟩) maxKeyLen [1]
      ⟨10, some [(1, ⟨0, 2, some 2, 7⟩)], 1, 0⟩).1.entry 1).isSome = true := by
  refine ⟨rfl, by decide, by decide⟩

/-- C9, amended.  A stored repeating entry (interval `p`) that is due and whose key
`lua_next` yields is invoked in the `Tick` (`rs` lists its invocations before the last one
`r`; there is none when `now + p` is above `now`), and what `Tick` does after an invocation
depends only on `lua_toboolean` of the result: for `nil` (also the result of a callback that
returns nothing) the entry is stored with the due time `now + p`, exactly as for `false`;
for `true`, and for any number, string, table or function, the entry is removed. -/
theorem C9_only_nil_counts_as_false (script : Script) (L : ObjLen) (visits : List Nat)
    (s : LuaState) (k : Nat) (e : TimerEntry) (p : LuaNumber) (hwf : WF s)
    (hk : s.entry k = some e) (hev : e.every = some p)
    (hdue : e.at_ ≤ s.gameTime) (hvis : k ∈ visits) :
    ∃ rs r, firings e.id (Tick script L visits s).2 = rs ++ [r] ∧
      (∃ r0, (rs ++ [r]).head? = some ⟨k, e, r0⟩) ∧
      (∀ x ∈ rs ++ [r], x.key = k ∧
        (x.timer = e ∨ x.timer = ⟨e.id, s.gameTime + p, some p, e.callback⟩) ∧
        ∃ n, x.ret = (script n e.callback).ret) ∧
      (∀ x ∈ rs, x.ret = .nil ∨ x.ret = .boolean false) ∧
      ((r.ret = .nil ∨ r.ret = .boolean false) →
        (Tick script L visits s).1.entry k
          = some ⟨e.id, s.gameTime + p, some p, e.callback⟩) ∧
      ((r.ret = .boolean true ∨ (∃ n, r.ret = .number n) ∨ (∃ t, r.ret = .string t) ∨
          (∃ t, r.ret = .table t) ∨ (∃ g, r.ret = .func g)) →
        Absent e.id (Tick script L visits s).1) ∧
      (¬ s.gameTime + p ≤ s.gameTime →
        firings e.id (Tick script L visits s).2 = [⟨k, e, r.ret⟩]) := by
  obtain ⟨rs, r, h1, h2, h3, h4, h5, h6⟩ :=
    tick_repeat script L visits s k e p hwf hk hev hdue hvis
  refine ⟨rs, r, h1, h2, h3, ?_, ?_, ?_, h6⟩
  · intro x hx
    have hf := h4 x hx
    cases hx2 : x.ret with
    | nil => exact Or.inl rfl
    | boolean b =>
      rw [hx2] at hf
      cases b with
      | false => exact Or.inr rfl
      | true => cases hf
    | number n => rw [hx2] at hf; cases hf
    | string t => rw [hx2] at hf; cases hf
    | table t => rw [hx2] at hf; cases hf
    | func g => rw [hx2] at hf; cases hf
  · intro hnil
    have hfalse : lua_toboolean r.ret = false := by
      rcases hnil with h | h <;> rw [h] <;> rfl
    rcases h5 with ⟨hc, _⟩ | ⟨_, hent⟩
    · rw [hfalse] at hc; cases hc
    · exact hent
  · intro hval
    have htrue : lua_toboolean r.ret = true := by
      rcases hval with h | ⟨n, h⟩ | ⟨t, h⟩ | ⟨t, h⟩ | ⟨g, h⟩ <;> rw [h] <;> rfl
    rcases h5 with ⟨_, hab⟩ | ⟨hc, _⟩
    · exact hab
    · rw [htrue] at hc; cases hc

/-- C9 amended, at a concrete input: the callback of a due `CallEvery(2, f)` returns
nothing. -/
theorem C9_only_nil_witness :
    WF ⟨10, some [(1, ⟨0, 2, some 2, 7⟩)], 1, 0⟩ ∧
    (⟨10, some [(1, ⟨0, 2, some 2, 7⟩)], 1, 0⟩ : LuaState).entry 1 = some ⟨0, 2, some 2, 7⟩ ∧
    (2 : LuaNumber) ≤ 10 ∧ 1 ∈ [1] ∧
    ∃ rs r, firings 0 (Tick (fun _ _ => ⟨[], .nil⟩) maxKeyLen [1]
          ⟨10, some [(1, ⟨0, 2, some 2, 7⟩)], 1, 0⟩).2 = rs ++ [r] :=
  ⟨wf_of_list _ (by decide) (by decide), by decide, by decide, by decide,
    (C9_only_nil_counts_as_false (fun _ _ => ⟨[], .nil⟩) maxKeyLen [1]
      ⟨10, some [(1, ⟨0, 2, some 2, 7⟩)], 1, 0⟩ 1 ⟨0, 2, some 2, 7⟩ 2
      (wf_of_list _ (by decide) (by decide)) (by decide) rfl (by decide)
      (by decide)).imp (fun _ h => h.imp (fun _ h2 => h2.1))⟩

/-- C10: the code at the failing input.  From the start (no table yet),
`Timer:CallEvery(0/0, f)` is accepted, because the test `every <= 0` of line 214 is false
for NaN, and stores an entry whose interval is NaN, which is not greater than zero; the
state is reachable in one call.  (The due time is NaN as well, so no `Tick` invokes the
entry.) -/
theorem C10_nan_interval_accepted :
    Reachable (fun _ _ => ⟨[], .nil⟩) maxKeyLen
      (step (fun _ _ => ⟨[], .nil⟩) maxKeyLen ⟨0, none, 0, 0⟩ (.CallEvery .nan 7)).1 ∧
    (l_timer_call_every maxKeyLen ⟨0, none, 0, 0⟩ .nan 7).1 = .ok () ∧
    (step (fun _ _ => ⟨[], .nil⟩) maxKeyLen ⟨0, none, 0, 0⟩ (.CallEvery .nan 7)).1.entry 1
      = some ⟨0, .nan, some .nan, 7⟩ ∧
    ¬ ((0 : LuaNumber) < .nan) ∧
    ¬ PosIntervals
      (step (fun _ _ => ⟨[], .nil⟩) maxKeyLen ⟨0, none, 0, 0⟩ (.CallEvery .nan 7)).1 := by
  refine ⟨Reachable.step _ _ (Reachable.init 0), rfl, by decide, by decide, ?_⟩
  intro h
  exact absurd (h 1 ⟨0, .nan, some .nan, 7⟩ .nan (by decide) rfl) (by decide)

/-- The key `_finish_timer_create` writes is `lua_objlen + 1`; every other key is as before. -/
theorem register_at_border (L : ObjLen) (s : LuaState) (e : TimerEntry) :
    s.entry (L.len s.timers + 1) = none ∧
    (_finish_timer_create L { s with allocs := s.allocs + 1 } e).entry (L.len s.timers + 1)
      = some e ∧
    (∀ j x, s.entry j = some x →
      (_finish_timer_create L { s with allocs := s.allocs + 1 } e).entry j = some x) ∧
    ∀ j, j ≠ L.len s.timers + 1 →
      (_finish_timer_create L { s with allocs := s.allocs + 1 } e).entry j = s.entry j := by
  have ht : ({ s with allocs := s.allocs + 1 } : LuaState).timers = s.timers := rfl
  have hfree := free_key L s
  have hent : ∀ j, (_finish_timer_create L { s with allocs := s.allocs + 1 } e).entry j
      = if j = L.len s.timers + 1 then some e else s.entry j := by
    intro j; rw [finish_entry, ht]; rfl
  refine ⟨hfree, by simp [hent], ?_, ?_⟩
  · intro j x hj
    have hne : j ≠ L.len s.timers + 1 := by
      rintro rfl; rw [hfree] at hj; cases hj
    simp [hent, hne, hj]
  · intro j hj
    simp [hent, hj]

/-- C11 (a successful registration adds exactly one entry and loses none).  For every state,
also one with holes among the keys and one with no table yet, and every admissible
`lua_objlen`: an accepted `Timer:CallAt(t, f)` writes the key `lua_objlen + 1`, which held
nothing; afterwards that key holds a new table object due at `t` with no interval and
callback `f`, every entry stored before is stored under its key unchanged, and no other
key has changed.  The same holds for an accepted `Timer:CallEvery(i, f)`, whose entry is
due at `now + i` (the sum of line 221) with interval `i`. -/
theorem C11_registration_adds_exactly_one (L : ObjLen) (s : LuaState) (t i : LuaNumber)
    (f : Callback) (ht : s.gameTime < t) (hi : 0 < i) :
    ((l_timer_call_at L s t f).1 = .ok () ∧
      s.entry (L.len s.timers + 1) = none ∧
      (l_timer_call_at L s t f).2.entry (L.len s.timers + 1)
        = some ⟨s.allocs, t, none, f⟩ ∧
      (∀ j x, s.entry j = some x → (l_timer_call_at L s t f).2.entry j = some x) ∧
      (∀ j, j ≠ L.len s.timers + 1 → (l_timer_call_at L s t f).2.entry j = s.entry j)) ∧
    ((l_timer_call_every L s i f).1 = .ok () ∧
      s.entry (L.len s.timers + 1) = none ∧
      (l_timer_call_every L s i f).2.entry (L.len s.timers + 1)
        = some ⟨s.allocs, s.gameTime + i, some i, f⟩ ∧
      (∀ j x, s.entry j = some x → (l_timer_call_every L s i f).2.entry j = some x) ∧
      (∀ j, j ≠ L.len s.timers + 1 → (l_timer_call_every L s i f).2.entry j = s.entry j)) := by
  have h1 : l_timer_call_at L s t f
      = (.ok (), _finish_timer_create L { s with allocs := s.allocs + 1 }
          ⟨s.allocs, t, none, f⟩) := by
    simp [l_timer_call_at, LuaNumber.not_le_of_lt ht]
  have h2 : l_timer_call_every L s i f
      = (.ok (), _finish_timer_create L { s with allocs := s.allocs + 1 }
          ⟨s.allocs, s.gameTime + i, some i, f⟩) := by
    simp [l_timer_call_every, LuaNumber.not_le_of_lt hi]
  rw [h1, h2]
  exact ⟨⟨rfl, register_at_border L s _⟩, ⟨rfl, register_at_border L s _⟩⟩

/-- C11 at a concrete input: a table whose keys 1 and 2 were cleared and whose key 3 is in
use; the new entries go to key 4. -/
theorem C11_registration_witness :
    (5 : LuaNumber) < 8 ∧ (0 : LuaNumber) < 2 ∧
    (l_timer_call_at maxKeyLen ⟨5, some [(3, ⟨2, 9, none, 7⟩)], 3, 0⟩ 8 6).2.entry
        (maxKeyLen.len (⟨5, some [(3, ⟨2, 9, none, 7⟩)], 3, 0⟩ : LuaState).timers + 1)
      = some ⟨3, 8, none, 6⟩ :=
  ⟨by decide, by decide,
    (C11_registration_adds_exactly_one maxKeyLen ⟨5, some [(3, ⟨2, 9, none, 7⟩)], 3, 0⟩ 8 2 6
      (by decide) (by decide)).1.2.2.1⟩

/-- C14 as stated fails, in two ways.  First, the schedule after
`Timer:CallEvery(2 ^ -30, f)` at the game time `2 ^ 27` (see C6): the only interval is
positive and the traversal `[1]` yields every key, yet after the `Tick` the entry is stored
with the due time `2 ^ 27`, which is the game time, and a second `Tick` at the same game
time invokes `f` again.  Second, the schedule and the first traversal of the C1 example (no
intervals at all): the entry under key 5 is due and still stored after the `Tick`, and the
second `Tick` at the same game time, whose traversal yields the keys 1 and 5, invokes it. -/
theorem C14_still_due_after_tick :
    (PosIntervals
        ⟨.fin 134217728, some [(1, ⟨0, .fin 134217728, some (.fin (1 / 1073741824)), 7⟩)],
          2, 0⟩ ∧
      (Tick (fun _ _ => ⟨[], .nil⟩) maxKeyLen [1]
          ⟨.fin 134217728, some [(1, ⟨0, .fin 134217728, some (.fin (1 / 1073741824)), 7⟩)],
            2, 0⟩).1
        = ⟨.fin 134217728,
            some [(1, ⟨0, .fin 134217728, some (.fin (1 / 1073741824)), 7⟩)], 2, 1⟩ ∧
      (LuaNumber.fin 134217728) ≤ .fin 134217728 ∧
      (Tick (fun _ _ => ⟨[], .nil⟩) maxKeyLen [1]
          (Tick (fun _ _ => ⟨[], .nil⟩) maxKeyLen [1]
            ⟨.fin 134217728,
              some [(1, ⟨0, .fin 134217728, some (.fin (1 / 1073741824)), 7⟩)], 2, 0⟩).1).2
        = [⟨1, ⟨0, .fin 134217728, some (.fin (1 / 1073741824)), 7⟩, .nil⟩]) ∧
    (PosIntervals ⟨10, some [(5, ⟨5, 10, none, 8⟩), (4, ⟨4, 10, none, 7⟩)], 6, 3⟩ ∧
      (Tick (fun _ f => if f = 7 then ⟨[.CallAt 11 9], .nil⟩ else ⟨[], .nil⟩) probeLen [4]
          ⟨10, some [(5, ⟨5, 10, none, 8⟩), (4, ⟨4, 10, none, 7⟩)], 6, 3⟩).1
        = ⟨10, some [(1, ⟨6, 11, none, 9⟩), (5, ⟨5, 10, none, 8⟩)], 7, 4⟩ ∧
      (10 : LuaNumber) ≤ 10 ∧
      (Tick (fun _ f => if f = 7 then ⟨[.CallAt 11 9], .nil⟩ else ⟨[], .nil⟩) probeLen
          [1, 5]
          (Tick (fun _ f => if f = 7 then ⟨[.CallAt 11 9], .nil⟩ else ⟨[], .nil⟩) probeLen
            [4] ⟨10, some [(5, ⟨5, 10, none, 8⟩), (4, ⟨4, 10, none, 7⟩)], 6, 3⟩).1).2
        = [⟨5, ⟨5, 10, none, 8⟩, .nil⟩]) := by
  have hT : (Tick (fun _ _ => ⟨[], .nil⟩) maxKeyLen [1]
      ⟨.fin 134217728, some [(1, ⟨0, .fin 134217728, some (.fin (1 / 1073741824)), 7⟩)],
        2, 0⟩).1
      = ⟨.fin 134217728,
          some [(1, ⟨0, .fin 134217728, some (.fin (1 / 1073741824)), 7⟩)], 2, 1⟩ := by
    rw [Tick_eq_foldl, List.foldl_cons, List.foldl_nil]
    have h := tickEntry_rearm (fun _ _ => ⟨[], .nil⟩) maxKeyLen (.fin 134217728)
      ⟨.fin 134217728, some [(1, ⟨0, .fin 134217728, some (.fin (1 / 1073741824)), 7⟩)],
        2, 0⟩ [] 1 ⟨0, .fin 134217728, some (.fin (1 / 1073741824)), 7⟩
      (.fin (1 / 1073741824)) rfl (by decide) rfl rfl
    refine h.trans ?_
    show LuaState.mk _ (some [(1, TimerEntry.mk 0
      (LuaNumber.fin 134217728 + .fin (1 / 1073741824)) _ 7)]) 2 1 = _
    rw [absorb]
    rfl
  refine ⟨⟨?_, hT, by decide, ?_⟩, ⟨?_, by decide, by decide, by decide⟩⟩
  · intro k e p hk hp
    have hm := gettable_mem _ _ _ hk
    simp only [LuaState.timers, Option.getD_some, List.mem_singleton, Prod.mk.injEq] at hm
    obtain ⟨_, rfl⟩ := hm
    cases hp
    exact tiny_pos
  · rw [hT, Tick_eq_foldl, List.foldl_cons, List.foldl_nil]
    exact tickEntry_log _ _ _ _ _ 1 _ rfl (by decide)
  · intro k e p hk hp
    have hm := gettable_mem _ _ _ hk
    simp only [LuaState.timers, Option.getD_some, List.mem_cons, Prod.mk.injEq,
      List.mem_singleton, List.not_mem_nil, or_false] at hm
    rcases hm with ⟨_, rfl⟩ | ⟨_, rfl⟩ <;> cases hp

/-- C14, amended.  After a `Tick` whose traversal yields every key that holds a due entry,
the game time is as before, and an entry left in the schedule (kept, stored again after a
false result, or registered by a callback during the `Tick`) is not due, except a repeating
entry whose due time `now + p`, computed in doubles, is not above `now`.  When no interval
stored after the `Tick` is that small, nothing in the schedule is due, and a second `Tick`
at the same game time, with any traversal order, invokes no callback and leaves the state as
it is. -/
theorem C14_after_tick_what_is_due (script : Script) (L : ObjLen) (visits visits2 : List Nat)
    (s : LuaState)
    (hall : ∀ k e, s.entry k = some e → e.at_ ≤ s.gameTime → k ∈ visits) :
    (Tick script L visits s).1.gameTime = s.gameTime ∧
    (∀ k e, (Tick script L visits s).1.entry k = some e →
      ¬ e.at_ ≤ s.gameTime ∨
      ∃ p, e.every = some p ∧ e.at_ = s.gameTime + p ∧ s.gameTime + p ≤ s.gameTime) ∧
    ((∀ k e p, (Tick script L visits s).1.entry k = some e → e.every = some p →
        ¬ s.gameTime + p ≤ s.gameTime) →
      (∀ k e, (Tick script L visits s).1.entry k = some e → ¬ e.at_ ≤ s.gameTime) ∧
      Tick script L visits2 (Tick script L visits s).1 = ((Tick script L visits s).1, [])) := by
  have inv := tick_inv script L visits s
  have hset := tick_settled script L visits s hall
  refine ⟨inv.time, ?_, ?_⟩
  · intro k e hk
    by_cases hdue : e.at_ ≤ s.gameTime
    · rcases hset k e hk with h | ⟨p, hp, hat⟩
      · exact absurd hdue h
      · exact Or.inr ⟨p, hp, hat, by rw [← hat]; exact hdue⟩
    · exact Or.inl hdue
  · intro hbig
    have hnd : ∀ k e, (Tick script L visits s).1.entry k = some e → ¬ e.at_ ≤ s.gameTime := by
      intro k e hk
      rcases hset k e hk with h | ⟨p, hp, hat⟩
      · exact h
      · rw [hat]; exact hbig k e p hk hp
    refine ⟨hnd, ?_⟩
    apply tick_idle
    intro k e hk
    rw [inv.time]
    exact hnd k e hk

/-- C14 amended, at a concrete input: one due `CallEvery(2, f)` entry, `Tick` twice at game
time 10; the double sum `10 + 2` is above 10, and the second `Tick` does nothing. -/
theorem C14_after_tick_witness :
    (∀ k e, (⟨10, some [(1, ⟨0, 2, some 2, 7⟩)], 1, 0⟩ : LuaState).entry k = some e →
      e.at_ ≤ (10 : LuaNumber) → k ∈ [1]) ∧
    (∀ k e p, (Tick (fun _ _ => ⟨[], .nil⟩) maxKeyLen [1]
        ⟨10, some [(1, ⟨0, 2, some 2, 7⟩)], 1, 0⟩).1.entry k = some e → e.every = some p →
      ¬ (10 : LuaNumber) + p ≤ 10) ∧
    Tick (fun _ _ => ⟨[], .nil⟩) maxKeyLen [1]
        (Tick (fun _ _ => ⟨[], .nil⟩) maxKeyLen [1]
          ⟨10, some [(1, ⟨0, 2, some 2, 7⟩)], 1, 0⟩).1
      = ((Tick (fun _ _ => ⟨[], .nil⟩) maxKeyLen [1]
          ⟨10, some [(1, ⟨0, 2, some 2, 7⟩)], 1, 0⟩).1, []) :=
  have hent : ∀ k e, (⟨10, some [(1, ⟨0, 2, some 2, 7⟩)], 1, 0⟩ : LuaState).entry k = some e →
      k = 1 ∧ e = ⟨0, 2, some 2, 7⟩ := by
    intro k e h
    have hm := gettable_mem _ _ _ h
    simp [LuaState.timers] at hm
    exact hm
  have hall : ∀ k e, (⟨10, some [(1, ⟨0, 2, some 2, 7⟩)], 1, 0⟩ : LuaState).entry k = some e →
      e.at_ ≤ (10 : LuaNumber) → k ∈ [1] := by
    intro k e h _
    rw [(hent k e h).1]
    exact List.mem_singleton.2 rfl
  have hT : (Tick (fun _ _ => ⟨[], .nil⟩) maxKeyLen [1]
      ⟨10, some [(1, ⟨0, 2, some 2, 7⟩)], 1, 0⟩).1
      = ⟨10, some [(1, ⟨0, 10 + 2, some 2, 7⟩)], 1, 1⟩ := by
    rw [Tick_eq_foldl, List.foldl_cons, List.foldl_nil]
    exact tickEntry_rearm (fun _ _ => ⟨[], .nil⟩) maxKeyLen 10
      ⟨10, some [(1, ⟨0, 2, some 2, 7⟩)], 1, 0⟩ [] 1 ⟨0, 2, some 2, 7⟩ 2 rfl (by decide) rfl rfl
  have hbig : ∀ k e p, (Tick (fun _ _ => ⟨[], .nil⟩) maxKeyLen [1]
      ⟨10, some [(1, ⟨0, 2, some 2, 7⟩)], 1, 0⟩).1.entry k = some e → e.every = some p →
      ¬ (10 : LuaNumber) + p ≤ 10 := by
    intro k e p hk hp
    rw [hT] at hk
    have hm := gettable_mem _ _ _ hk
    simp only [LuaState.timers, Option.getD_some, List.mem_singleton, Prod.mk.injEq] at hm
    obtain ⟨_, rfl⟩ := hm
    cases hp
    exact ten_plus_two_later
  ⟨hall, hbig,
    ((C14_after_tick_what_is_due (fun _ _ => ⟨[], .nil⟩) maxKeyLen [1] [1]
      ⟨10, some [(1, ⟨0, 2, some 2, 7⟩)], 1, 0⟩ hall).2.2 hbig).2⟩

end LuaTimer

namespace Utils

/-! ## C division on integers -/

theorem tdiv_nonneg_eq (a b : ℤ) (ha : 0 ≤ a) (hb : 0 ≤ b) : Int.tdiv a b = a / b :=
  Int.tdiv_eq_ediv ha hb

theorem tmod_nonneg_eq (a b : ℤ) (ha : 0 ≤ a) (hb : 0 ≤ b) : Int.tmod a b = a % b :=
  Int.tmod_eq_emod ha hb

theorem tdiv_nonpos_eq (a b : ℤ) (ha : a ≤ 0) (hb : 0 ≤ b) : Int.tdiv a b = -((-a) / b) := by
  have h := @Int.tdiv_eq_ediv (-a) b (by omega) hb
  rw [Int.neg_tdiv] at h
  omega

theorem tmod_nonpos_eq (a b : ℤ) (ha : a ≤ 0) (hb : 0 ≤ b) : Int.tmod a b = -((-a) % b) := by
  rw [Int.tmod_def, tdiv_nonpos_eq a b ha hb, Int.emod_def]
  ring

theorem yearLength_eq (y : ℤ) :
    yearLength y = if (y % 4 = 0 ∧ y % 100 ≠ 0) ∨ y % 400 = 0 then 366 else 365 := by
  unfold yearLength isLeapYear
  by_cases h4 : y % 4 = 0 <;> by_cases h100 : y % 100 = 0 <;> by_cases h400 : y % 400 = 0 <;>
    simp [h4, h100, h400]

theorem dayOfYear_lt (i : ℤ) : 0 ≤ dayOfYear i ∧ dayOfYear i < yearLength (yearOf i) := by
  rw [yearLength_eq]
  unfold dayOfYear yearOf
  split_ifs <;> omega

theorem yearOf_pos (i : ℤ) (hi : 0 ≤ i) : 0 < yearOf i := by
  unfold yearOf
  split_ifs <;> omega

/-- What `timedate::operator=` computes once the day count of line 94 is known to be
non-negative: the date part is `yearOf` and `dayOfYear` of the day count, split into month
and day by the loop. -/
theorem assign_of_dayCount_nonneg (stamp : ℤ) (h : 0 ≤ timedate.dayCount stamp) :
    timedate.assign stamp =
      match timedate.monthLoop (timedate.days (isLeapYear (yearOf (timedate.dayCount stamp))))
          (dayOfYear (timedate.dayCount stamp)) 0 with
      | none => none
      | some (month, day) =>
        some ⟨Int.tmod (Int.tdiv (Int.tmod stamp 86400) 3600 + 24) 24,
          Int.tmod (Int.tdiv (Int.tmod (Int.tmod stamp 86400) 3600) 60 + 60) 60,
          Int.tmod (Int.tmod (Int.tmod (Int.tmod stamp 86400) 3600) 60 + 60) 60,
          day, month, yearOf (timedate.dayCount stamp)⟩ := by
  generalize hi : timedate.dayCount stamp = i at h
  have e1 : Int.tmod i 146097 = i % 146097 := tmod_nonneg_eq _ _ h (by norm_num)
  have e2 : Int.tdiv i 146097 = i / 146097 := tdiv_nonneg_eq _ _ h (by norm_num)
  have e3 : Int.tmod (i % 146097) 36524 = i % 146097 % 36524 :=
    tmod_nonneg_eq _ _ (by omega) (by norm_num)
  have e4 : Int.tdiv (i % 146097) 36524 = i % 146097 / 36524 :=
    tdiv_nonneg_eq _ _ (by omega) (by norm_num)
  have e5 : Int.tmod (i % 146097 % 36524) 1461 = i % 146097 % 36524 % 1461 :=
    tmod_nonneg_eq _ _ (by omega) (by norm_num)
  have e6 : Int.tdiv (i % 146097 % 36524) 1461 = i % 146097 % 36524 / 1461 :=
    tdiv_nonneg_eq _ _ (by omega) (by norm_num)
  have e7 : Int.tmod (i % 146097 % 36524 % 1461) 365 = i % 146097 % 36524 % 1461 % 365 :=
    tmod_nonneg_eq _ _ (by omega) (by norm_num)
  have e8 : Int.tdiv (i % 146097 % 36524 % 1461) 365 = i % 146097 % 36524 % 1461 / 365 :=
    tdiv_nonneg_eq _ _ (by omega) (by norm_num)
  have hy := yearOf_pos i h
  have e9 : Int.tmod (yearOf i) 4 = yearOf i % 4 := tmod_nonneg_eq _ _ (by omega) (by norm_num)
  have e10 : Int.tmod (yearOf i) 100 = yearOf i % 100 :=
    tmod_nonneg_eq _ _ (by omega) (by norm_num)
  have e11 : Int.tmod (yearOf i) 400 = yearOf i % 400 :=
    tmod_nonneg_eq _ _ (by omega) (by norm_num)
  have hyear : i % 146097 % 36524 % 1461 / 365 + i % 146097 % 36524 / 1461 * 4
      + i % 146097 / 36524 * 100 + i / 146097 * 400
      + (if (i % 146097 / 36524 == 4 || i % 146097 % 36524 % 1461 / 365 == 4) = true
          then 0 else 1) = yearOf i := by
    unfold yearOf
    simp
  have hday : i % 146097 % 36524 % 1461 % 365
      + (if (i % 146097 / 36524 == 4 || i % 146097 % 36524 % 1461 / 365 == 4) = true
          then 1 else 0) * 365 = dayOfYear i := by
    unfold dayOfYear
    simp
  unfold timedate.assign
  simp only [hi, e1, e2, e3, e4, e5, e6, e7, e8, hyear, hday, e9, e10, e11]
  rfl

/-! ## The month loop -/

theorem daysInMonth_eq (y m : ℤ) : daysInMonth y m = monthLength (isLeapYear y) m := rfl

set_option maxRecDepth 100000 in
theorem month_facts_common :
    ∀ n : Nat, n < 365 →
      (timedate.monthLoop (timedate.days false) (n : ℤ) 0 = some (mdOf false n) ∧
        0 ≤ (mdOf false n).1 ∧ (mdOf false n).1 < 12 ∧ 0 ≤ (mdOf false n).2 ∧
        (mdOf false n).2 < monthLength false (mdOf false n).1 ∧
        (timedate.days false).get? (mdOf false n).1.toNat
          = some (monthLength false (mdOf false n).1) ∧
        (n + 1 < 365 →
          mdOf false ((n : ℤ) + 1)
            = (if (mdOf false n).2 + 1 < monthLength false (mdOf false n).1
                then ((mdOf false n).1, (mdOf false n).2 + 1)
                else ((mdOf false n).1 + 1, 0)) ∧
          ((mdOf false n).2 + 1 < monthLength false (mdOf false n).1 ∨
            (mdOf false n).1 + 1 < 12)) ∧
        (n + 1 = 365 → mdOf false n = (11, 30))) := by
  decide

set_option maxRecDepth 100000 in
theorem month_facts_leap :
    ∀ n : Nat, n < 366 →
      (timedate.monthLoop (timedate.days true) (n : ℤ) 0 = some (mdOf true n) ∧
        0 ≤ (mdOf true n).1 ∧ (mdOf true n).1 < 12 ∧ 0 ≤ (mdOf true n).2 ∧
        (mdOf true n).2 < monthLength true (mdOf true n).1 ∧
        (timedate.days true).get? (mdOf true n).1.toNat
          = some (monthLength true (mdOf true n).1) ∧
        (n + 1 < 366 →
          mdOf true ((n : ℤ) + 1)
            = (if (mdOf true n).2 + 1 < monthLength true (mdOf true n).1
                then ((mdOf true n).1, (mdOf true n).2 + 1)
                else ((mdOf true n).1 + 1, 0)) ∧
          ((mdOf true n).2 + 1 < monthLength true (mdOf true n).1 ∨
            (mdOf true n).1 + 1 < 12)) ∧
        (n + 1 = 366 → mdOf true n = (11, 30))) := by
  decide

/-! ## From one day to the next -/

theorem step146097 (x : ℤ) :
    (x % 146097 + 1 < 146097 ∧ (x + 1) / 146097 = x / 146097 ∧
      (x + 1) % 146097 = x % 146097 + 1) ∨
    (x % 146097 = 146096 ∧ (x + 1) / 146097 = x / 146097 + 1 ∧ (x + 1) % 146097 = 0) := by
  omega

theorem step36524 (x : ℤ) :
    (x % 36524 + 1 < 36524 ∧ (x + 1) / 36524 = x / 36524 ∧
      (x + 1) % 36524 = x % 36524 + 1) ∨
    (x % 36524 = 36523 ∧ (x + 1) / 36524 = x / 36524 + 1 ∧ (x + 1) % 36524 = 0) := by
  omega

theorem step1461 (x : ℤ) :
    (x % 1461 + 1 < 1461 ∧ (x + 1) / 1461 = x / 1461 ∧ (x + 1) % 1461 = x % 1461 + 1) ∨
    (x % 1461 = 1460 ∧ (x + 1) / 1461 = x / 1461 + 1 ∧ (x + 1) % 1461 = 0) := by
  omega

theorem step365 (x : ℤ) :
    (x % 365 + 1 < 365 ∧ (x + 1) / 365 = x / 365 ∧ (x + 1) % 365 = x % 365 + 1) ∨
    (x % 365 = 364 ∧ (x + 1) / 365 = x / 365 + 1 ∧ (x + 1) % 365 = 0) := by
  omega

set_option maxHeartbeats 4000000 in
/-- From one day count to the next, the computed day of the year goes up by one within the
computed year, or the year is over and the next one starts at day 0. -/
theorem year_day_succ (i : ℤ) :
    (dayOfYear i + 1 < yearLength (yearOf i) ∧ yearOf (i + 1) = yearOf i ∧
      dayOfYear (i + 1) = dayOfYear i + 1) ∨
    (dayOfYear i + 1 = yearLength (yearOf i) ∧ yearOf (i + 1) = yearOf i + 1 ∧
      dayOfYear (i + 1) = 0) := by
  rw [yearLength_eq]
  unfold dayOfYear yearOf
  rcases step146097 i with ⟨h1, e1, e2⟩ | ⟨h1, e1, e2⟩
  · rw [e1, e2]
    rcases step36524 (i % 146097) with ⟨h2, e3, e4⟩ | ⟨h2, e3, e4⟩
    · rw [e3, e4]
      rcases step1461 (i % 146097 % 36524) with ⟨h3, e5, e6⟩ | ⟨h3, e5, e6⟩
      · rw [e5, e6]
        rcases step365 (i % 146097 % 36524 % 1461) with ⟨h4, e7, e8⟩ | ⟨h4, e7, e8⟩
        · rw [e7, e8]
          split_ifs <;> omega
        · rw [e7, e8]
          split_ifs <;> omega
      · rw [e5, e6]
        norm_num
        split_ifs <;> omega
    · rw [e3, e4]
      norm_num
      split_ifs <;> omega
  · rw [e1, e2]
    norm_num
    split_ifs <;> omega

/-- The facts about the month loop, for a day of the year given as an integer. -/
theorem month_facts (leap : Bool) (d : ℤ) (h0 : 0 ≤ d)
    (h1 : d < if leap = true then 366 else 365) :
    timedate.monthLoop (timedate.days leap) d 0 = some (mdOf leap d) ∧
    0 ≤ (mdOf leap d).1 ∧ (mdOf leap d).1 < 12 ∧ 0 ≤ (mdOf leap d).2 ∧
    (mdOf leap d).2 < monthLength leap (mdOf leap d).1 ∧
    (timedate.days leap).get? (mdOf leap d).1.toNat = some (monthLength leap (mdOf leap d).1) ∧
    (d + 1 < (if leap = true then 366 else 365) →
      mdOf leap (d + 1)
        = (if (mdOf leap d).2 + 1 < monthLength leap (mdOf leap d).1
            then ((mdOf leap d).1, (mdOf leap d).2 + 1)
            else ((mdOf leap d).1 + 1, 0)) ∧
      ((mdOf leap d).2 + 1 < monthLength leap (mdOf leap d).1 ∨ (mdOf leap d).1 + 1 < 12)) ∧
    (d + 1 = (if leap = true then 366 else 365) → mdOf leap d = (11, 30)) := by
  obtain ⟨n, rfl⟩ := Int.eq_ofNat_of_zero_le h0
  cases leap with
  | false =>
    simp only [Bool.false_eq_true, if_false] at h1 ⊢
    have hn : n < 365 := by omega
    obtain ⟨a, b, c, d, e, f, g, h⟩ := month_facts_common n hn
    exact ⟨a, b, c, d, e, f, fun hh => g (by omega), fun hh => h (by omega)⟩
  | true =>
    simp only [if_true] at h1 ⊢
    have hn : n < 366 := by omega
    obtain ⟨a, b, c, d, e, f, g, h⟩ := month_facts_leap n hn
    exact ⟨a, b, c, d, e, f, fun hh => g (by omega), fun hh => h (by omega)⟩

theorem mdOf_zero (leap : Bool) : mdOf leap 0 = (0, 0) := by
  cases leap <;> decide

theorem yearLength_bool (y : ℤ) : yearLength y = if isLeapYear y = true then 366 else 365 := rfl

/-- The computed date of the next day count is the day after the computed date. -/
theorem dateOf_succ (i : ℤ) : dateOf (i + 1) = nextDay (dateOf i) := by
  obtain ⟨hd0, hd1⟩ := dayOfYear_lt i
  rw [yearLength_bool] at hd1
  obtain ⟨_, _, hm12, _, hlt, _, hin, hend⟩ :=
    month_facts (isLeapYear (yearOf i)) (dayOfYear i) hd0 hd1
  rcases year_day_succ i with ⟨h1, h2, h3⟩ | ⟨h1, h2, h3⟩
  · rw [yearLength_bool] at h1
    obtain ⟨hmd, hor⟩ := hin h1
    unfold dateOf nextDay
    rw [h2, h3, hmd]
    simp only [daysInMonth_eq]
    by_cases hc : (mdOf (isLeapYear (yearOf i)) (dayOfYear i)).2 + 1
        < monthLength (isLeapYear (yearOf i)) (mdOf (isLeapYear (yearOf i)) (dayOfYear i)).1
    · simp only [hc, if_true]
    · have h12 : (mdOf (isLeapYear (yearOf i)) (dayOfYear i)).1 + 1 < 12 := by
        rcases hor with h | h
        · exact absurd h hc
        · exact h
      simp only [hc, if_false, h12, if_true]
  · rw [yearLength_bool] at h1
    have hmd := hend h1
    unfold dateOf nextDay
    rw [h2, h3, hmd, mdOf_zero]
    simp only [daysInMonth_eq]
    have : monthLength (isLeapYear (yearOf i)) 11 = 31 := by
      cases isLeapYear (yearOf i) <;> decide
    simp [this]

theorem dateOf_start : dateOf 1168410 = ⟨3200, 0, 0⟩ := by decide

/-- The computed date of day count `1168410 + k` is the date `k` days after
1 January 3200. -/
theorem dateOf_gregorian (k : Nat) : dateOf (1168410 + (k : ℤ)) = gregorianAfter k := by
  induction k with
  | zero => simpa [gregorianAfter] using dateOf_start
  | succ k ih =>
    have : (1168410 : ℤ) + ((k + 1 : Nat) : ℤ) = (1168410 + (k : ℤ)) + 1 := by push_cast; ring
    rw [this, dateOf_succ, ih]
    simp only [gregorianAfter, Function.iterate_succ_apply']

/-! ## The claims on `timedate` -/

theorem tmod_range (a m : ℤ) (hm : 0 < m) : -m < Int.tmod a m ∧ Int.tmod a m < m := by
  rcases le_total 0 a with h | h
  · rw [tmod_nonneg_eq a m h (le_of_lt hm)]
    have h1 := Int.emod_nonneg a (ne_of_gt hm)
    have h2 := Int.emod_lt_of_pos a hm
    exact ⟨by omega, h2⟩
  · rw [tmod_nonpos_eq a m h (le_of_lt hm)]
    have h1 := Int.emod_nonneg (-a) (ne_of_gt hm)
    have h2 := Int.emod_lt_of_pos (-a) hm
    exact ⟨by omega, by omega⟩

/-- `(x / 3600 + 24) % 24` in C lies in `0..23` when `|x| < 86400`. -/
theorem hour_range (x : ℤ) (h1 : -86400 < x) (h2 : x < 86400) :
    0 ≤ Int.tmod (Int.tdiv x 3600 + 24) 24 ∧ Int.tmod (Int.tdiv x 3600 + 24) 24 < 24 := by
  rcases le_total 0 x with h | h
  · rw [tdiv_nonneg_eq x 3600 h (by norm_num),
      tmod_nonneg_eq _ 24 (by omega) (by norm_num)]
    omega
  · rw [tdiv_nonpos_eq x 3600 h (by norm_num),
      tmod_nonneg_eq _ 24 (by omega) (by norm_num)]
    omega

/-- `(x / 60 + 60) % 60` in C lies in `0..59` when `|x| < 3600`. -/
theorem minute_range (x : ℤ) (h1 : -3600 < x) (h2 : x < 3600) :
    0 ≤ Int.tmod (Int.tdiv x 60 + 60) 60 ∧ Int.tmod (Int.tdiv x 60 + 60) 60 < 60 := by
  rcases le_total 0 x with h | h
  · rw [tdiv_nonneg_eq x 60 h (by norm_num),
      tmod_nonneg_eq _ 60 (by omega) (by norm_num)]
    omega
  · rw [tdiv_nonpos_eq x 60 h (by norm_num),
      tmod_nonneg_eq _ 60 (by omega) (by norm_num)]
    omega

/-- `(x + 60) % 60` in C lies in `0..59` when `|x| < 60`. -/
theorem second_range (x : ℤ) (h1 : -60 < x) (h2 : x < 60) :
    0 ≤ Int.tmod (x + 60) 60 ∧ Int.tmod (x + 60) 60 < 60 := by
  rw [tmod_nonneg_eq _ 60 (by omega) (by norm_num)]
  omega

theorem dayCount_nonneg (stamp : ℤ) (h0 : -2 ^ 31 ≤ stamp) : 0 ≤ timedate.dayCount stamp := by
  unfold timedate.dayCount
  rcases le_total 0 stamp with h | h
  · rw [tdiv_nonneg_eq stamp 86400 h (by norm_num)]
    split_ifs <;> omega
  · rw [tdiv_nonpos_eq stamp 86400 h (by norm_num)]
    norm_num at h0
    split_ifs <;> omega

theorem dayCount_of_nonneg (stamp : ℤ) (h0 : 0 ≤ stamp) :
    timedate.dayCount stamp = 1168410 + stamp / 86400 := by
  unfold timedate.dayCount
  rw [tdiv_nonneg_eq stamp 86400 h0 (by norm_num)]
  have : ¬ stamp < 0 := by omega
  simp only [this, if_false]
  ring

/-- The result of the decoding whenever the day count is non-negative. -/
theorem assign_some (stamp : ℤ) (h : 0 ≤ timedate.dayCount stamp) :
    timedate.assign stamp = some
      ⟨Int.tmod (Int.tdiv (Int.tmod stamp 86400) 3600 + 24) 24,
        Int.tmod (Int.tdiv (Int.tmod (Int.tmod stamp 86400) 3600) 60 + 60) 60,
        Int.tmod (Int.tmod (Int.tmod (Int.tmod stamp 86400) 3600) 60 + 60) 60,
        (dateOf (timedate.dayCount stamp)).day, (dateOf (timedate.dayCount stamp)).month,
        yearOf (timedate.dayCount stamp)⟩ := by
  obtain ⟨hd0, hd1⟩ := dayOfYear_lt (timedate.dayCount stamp)
  rw [yearLength_bool] at hd1
  have hm := (month_facts _ _ hd0 hd1).1
  rw [assign_of_dayCount_nonneg stamp h, hm]
  rfl

/-- C15 (calendar decoding of non-negative stamps).  For `0 ≤ stamp < 2^31` the decoding
has a result; its hour, minute and second are in range and give the second of the day,
`hour*3600 + minute*60 + second = stamp mod 86400`; its year, month and day (both counted
from 0) are the Gregorian date `floor(stamp / 86400)` days after 1 January 3200.  Stamp 0
decodes to the value of the default constructor, 00:00:00 on day 0 of month 0 of 3200. -/
theorem C15_nonnegative_stamps_decode_correctly (stamp : ℤ) (h0 : 0 ≤ stamp)
    (h1 : stamp < 2 ^ 31) :
    (∃ td, timedate.assign stamp = some td ∧
      td.hour * 3600 + td.minute * 60 + td.second = stamp % 86400 ∧
      0 ≤ td.hour ∧ td.hour < 24 ∧ 0 ≤ td.minute ∧ td.minute < 60 ∧
      0 ≤ td.second ∧ td.second < 60 ∧
      td.date = gregorianAfter (stamp / 86400).toNat) ∧
    timedate.assign 0 = some timedate.init := by
  have _ := h1
  refine ⟨?_, by decide⟩
  have hc := dayCount_of_nonneg stamp h0
  have hq : 0 ≤ stamp / 86400 := Int.ediv_nonneg h0 (by norm_num)
  have hnn : 0 ≤ timedate.dayCount stamp := by rw [hc]; omega
  refine ⟨_, assign_some stamp hnn, ?_⟩
  have e1 : Int.tmod stamp 86400 = stamp % 86400 := tmod_nonneg_eq _ _ h0 (by norm_num)
  have e2 : Int.tmod (stamp % 86400) 3600 = stamp % 86400 % 3600 :=
    tmod_nonneg_eq _ _ (by omega) (by norm_num)
  have e3 : Int.tdiv (stamp % 86400) 3600 = stamp % 86400 / 3600 :=
    tdiv_nonneg_eq _ _ (by omega) (by norm_num)
  have e4 : Int.tmod (stamp % 86400 % 3600) 60 = stamp % 86400 % 3600 % 60 :=
    tmod_nonneg_eq _ _ (by omega) (by norm_num)
  have e5 : Int.tdiv (stamp % 86400 % 3600) 60 = stamp % 86400 % 3600 / 60 :=
    tdiv_nonneg_eq _ _ (by omega) (by norm_num)
  have e6 : Int.tmod (stamp % 86400 / 3600 + 24) 24 = (stamp % 86400 / 3600 + 24) % 24 :=
    tmod_nonneg_eq _ _ (by omega) (by norm_num)
  have e7 : Int.tmod (stamp % 86400 % 3600 / 60 + 60) 60
      = (stamp % 86400 % 3600 / 60 + 60) % 60 :=
    tmod_nonneg_eq _ _ (by omega) (by norm_num)
  have e8 : Int.tmod (stamp % 86400 % 3600 % 60 + 60) 60
      = (stamp % 86400 % 3600 % 60 + 60) % 60 :=
    tmod_nonneg_eq _ _ (by omega) (by norm_num)
  simp only [e1, e2, e3, e4, e5, e6, e7, e8]
  refine ⟨by omega, by omega, by omega, by omega, by omega, by omega, by omega, ?_⟩
  have hk : ((stamp / 86400).toNat : ℤ) = stamp / 86400 := Int.toNat_of_nonneg hq
  rw [← dateOf_gregorian, hk, ← hc]
  rfl

/-- C15 at a concrete input: the last second of 1 January 3200. -/
theorem C15_nonnegative_witness :
    (0 : ℤ) ≤ 86399 ∧ (86399 : ℤ) < 2 ^ 31 ∧ timedate.assign 0 = some timedate.init :=
  ⟨by norm_num, by norm_num,
    (C15_nonnegative_stamps_decode_correctly 86399 (by norm_num) (by norm_num)).2⟩

/-- C16 fails on the code.  Stamp `-1` decodes to 00:00:59 on 31 December 3199, where the
second before 00:00:00 1 January 3200 is 23:59:59 (`-1 mod 86400 = 86399`); stamp `-86400`
decodes to 00:00:00 on 30 December 3199, one day early; so from stamp `-1` to stamp `0`
(00:00:00 on 1 January 3200) the decoded instant does not advance by one second. -/
theorem C16_negative_stamps_misdecoded :
    timedate.assign (-1) = some ⟨0, 0, 59, 30, 11, 3199⟩ ∧
    (-1 : ℤ) % 86400 = 86399 ∧
    timedate.assign (-86400) = some ⟨0, 0, 0, 29, 11, 3199⟩ ∧
    (-86400 : ℤ) / 86400 = -1 ∧
    timedate.assign 0 = some ⟨0, 0, 0, 0, 0, 3200⟩ := by
  decide

/-- C17 (calendar decoding stays in range).  For every 32-bit stamp the day count of
line 94 is non-negative and the decoding has a result, so the month loop ends without
reading past its row; in the result `0 ≤ hour < 24`, `0 ≤ minute < 60`, `0 ≤ second < 60`,
`0 ≤ month < 12`, and `0 ≤ day < days[leap][month]` for the leap flag of the computed
year. -/
theorem C17_decoding_stays_in_range (stamp : ℤ) (h0 : -2 ^ 31 ≤ stamp) (h1 : stamp < 2 ^ 31) :
    0 ≤ timedate.dayCount stamp ∧
    ∃ td, timedate.assign stamp = some td ∧
      0 ≤ td.hour ∧ td.hour < 24 ∧ 0 ≤ td.minute ∧ td.minute < 60 ∧
      0 ≤ td.second ∧ td.second < 60 ∧ 0 ≤ td.month ∧ td.month < 12 ∧ 0 ≤ td.day ∧
      ∃ dm, (timedate.days ((Int.tmod td.year 4 == 0 && Int.tmod td.year 100 != 0)
              || Int.tmod td.year 400 == 0)).get? td.month.toNat = some dm ∧
        td.day < dm := by
  have _ := h1
  have hnn := dayCount_nonneg stamp h0
  refine ⟨hnn, _, assign_some stamp hnn, ?_⟩
  obtain ⟨a1, a2⟩ := tmod_range stamp 86400 (by norm_num)
  obtain ⟨b1, b2⟩ := tmod_range (Int.tmod stamp 86400) 3600 (by norm_num)
  obtain ⟨c1, c2⟩ := tmod_range (Int.tmod (Int.tmod stamp 86400) 3600) 60 (by norm_num)
  obtain ⟨hh1, hh2⟩ := hour_range _ a1 a2
  obtain ⟨hm1, hm2⟩ := minute_range _ b1 b2
  obtain ⟨hs1, hs2⟩ := second_range _ c1 c2
  obtain ⟨hd0, hd1⟩ := dayOfYear_lt (timedate.dayCount stamp)
  rw [yearLength_bool] at hd1
  obtain ⟨_, m0, m1, d0, d1, hget, _, _⟩ := month_facts _ _ hd0 hd1
  have hy := yearOf_pos _ hnn
  have e9 : Int.tmod (yearOf (timedate.dayCount stamp)) 4
      = yearOf (timedate.dayCount stamp) % 4 := tmod_nonneg_eq _ _ (by omega) (by norm_num)
  have e10 : Int.tmod (yearOf (timedate.dayCount stamp)) 100
      = yearOf (timedate.dayCount stamp) % 100 := tmod_nonneg_eq _ _ (by omega) (by norm_num)
  have e11 : Int.tmod (yearOf (timedate.dayCount stamp)) 400
      = yearOf (timedate.dayCount stamp) % 400 := tmod_nonneg_eq _ _ (by omega) (by norm_num)
  refine ⟨hh1, hh2, hm1, hm2, hs1, hs2, m0, m1, d0, _, ?_, d1⟩
  simp only [e9, e10, e11]
  exact hget

/-- C17 at a concrete input: the smallest 32-bit stamp. -/
theorem C17_in_range_witness :
    -2 ^ 31 ≤ (-2147483648 : ℤ) ∧ (-2147483648 : ℤ) < 2 ^ 31 ∧
    0 ≤ timedate.dayCount (-2147483648) :=
  ⟨by norm_num, by norm_num,
    (C17_decoding_stays_in_range (-2147483648) (by norm_num) (by norm_num)).1⟩

/-! ## The claim on `pi_strcasestr` -/

theorem innerLoop_spec (rh rn : List Nat) :
    (innerLoop rh rn = .found → StartsWith rh rn) ∧
    (innerLoop rh rn = .mismatch → ¬ StartsWith rh rn) ∧
    (innerLoop rh rn = .exhausted → rh.length < rn.length) := by
  induction rh generalizing rn with
  | nil =>
    cases rn with
    | nil => simp [innerLoop, StartsWith]
    | cons n rn => simp [innerLoop, StartsWith]
  | cons h rh ih =>
    cases rn with
    | nil => simp [innerLoop, StartsWith]
    | cons n rn =>
      obtain ⟨i1, i2, i3⟩ := ih rn
      by_cases hc : TOLOWER h = TOLOWER n
      · have e : innerLoop (h :: rh) (n :: rn) = innerLoop rh rn := by
          simp [innerLoop, hc]
        rw [e]
        refine ⟨?_, ?_, ?_⟩
        · intro hf
          obtain ⟨a, b⟩ := i1 hf
          exact ⟨by simpa using a, by simp [hc, b]⟩
        · intro hm hs
          apply i2 hm
          obtain ⟨a, b⟩ := hs
          refine ⟨by simpa using a, ?_⟩
          simp only [List.length_cons, List.take_succ_cons, List.map_cons, List.cons.injEq] at b
          exact b.2
        · intro hx
          have := i3 hx
          simp only [List.length_cons]
          omega
      · have e : innerLoop (h :: rh) (n :: rn) = .mismatch := by
          simp [innerLoop, hc]
        rw [e]
        refine ⟨fun hf => (by cases hf), ?_, fun hf => (by cases hf)⟩
        intro _ hs
        obtain ⟨_, b⟩ := hs
        simp only [List.length_cons, List.take_succ_cons, List.map_cons, List.cons.injEq] at b
        exact hc b.1

theorem matchAt_zero (h n : Nat) (hs ns : List Nat) :
    MatchAt (h :: hs) (n :: ns) 0 ↔ TOLOWER h = TOLOWER n ∧ StartsWith hs ns := by
  unfold MatchAt StartsWith
  simp only [List.length_cons, List.drop_zero, List.take_succ_cons, List.map_cons,
    List.cons.injEq, zero_add]
  constructor
  · rintro ⟨a, b, c⟩
    exact ⟨b, by omega, c⟩
  · rintro ⟨b, a, c⟩
    exact ⟨by omega, b, c⟩

theorem matchAt_succ (h : Nat) (hs needle : List Nat) (i : Nat) :
    MatchAt (h :: hs) needle (i + 1) ↔ MatchAt hs needle i := by
  unfold MatchAt
  simp only [List.length_cons, List.drop_succ_cons]
  constructor
  · rintro ⟨a, b⟩
    exact ⟨by omega, b⟩
  · rintro ⟨a, b⟩
    exact ⟨by omega, b⟩

theorem matchAt_length (haystack needle : List Nat) (i : Nat) (h : MatchAt haystack needle i) :
    needle.length ≤ haystack.length := by
  have := h.1
  omega

/-- What the outer loop returns: nothing when the needle occurs nowhere, and otherwise
the suffix at the first index where it occurs. -/
theorem outerLoop_spec (n : Nat) (ns hs : List Nat) :
    (outerLoop (TOLOWER n) ns hs = none ∧ ∀ i, ¬ MatchAt hs (n :: ns) i) ∨
    ∃ i, outerLoop (TOLOWER n) ns hs = some (hs.drop i) ∧ MatchAt hs (n :: ns) i ∧
      ∀ j, j < i → ¬ MatchAt hs (n :: ns) j := by
  induction hs with
  | nil =>
    left
    refine ⟨rfl, ?_⟩
    intro i hm
    have := hm.1
    simp at this
  | cons h hs ih =>
    -- when index 0 is no occurrence, the answer for `h :: hs` is the one for `hs`, shifted
    have shift : outerLoop (TOLOWER n) ns (h :: hs) = outerLoop (TOLOWER n) ns hs →
        ¬ MatchAt (h :: hs) (n :: ns) 0 →
        (outerLoop (TOLOWER n) ns (h :: hs) = none ∧ ∀ i, ¬ MatchAt (h :: hs) (n :: ns) i) ∨
        ∃ i, outerLoop (TOLOWER n) ns (h :: hs) = some ((h :: hs).drop i) ∧
          MatchAt (h :: hs) (n :: ns) i ∧ ∀ j, j < i → ¬ MatchAt (h :: hs) (n :: ns) j := by
      intro e h0
      rw [e]
      rcases ih with ⟨hn, hall⟩ | ⟨i, hi, hm, hmin⟩
      · left
        refine ⟨hn, ?_⟩
        intro i
        cases i with
        | zero => exact h0
        | succ i => rw [matchAt_succ]; exact hall i
      · right
        refine ⟨i + 1, by simpa using hi, (matchAt_succ h hs _ i).2 hm, ?_⟩
        intro j hj
        cases j with
        | zero => exact h0
        | succ j => rw [matchAt_succ]; exact hmin j (by omega)
    obtain ⟨i1, i2, i3⟩ := innerLoop_spec hs ns
    by_cases hc : TOLOWER h = TOLOWER n
    · cases hin : innerLoop hs ns with
      | found =>
        right
        refine ⟨0, by simp [outerLoop, hc, hin], (matchAt_zero h n hs ns).2 ⟨hc, i1 hin⟩, ?_⟩
        intro j hj
        omega
      | exhausted =>
        left
        refine ⟨by simp [outerLoop, hc, hin], ?_⟩
        intro i hm
        have h1 := matchAt_length _ _ i hm
        have h2 := i3 hin
        simp only [List.length_cons] at h1
        omega
      | mismatch =>
        apply shift
        · simp [outerLoop, hc, hin]
        · intro hm
          exact i2 hin ((matchAt_zero h n hs ns).1 hm).2
    · apply shift
      · simp [outerLoop, hc]
      · intro hm
        exact hc ((matchAt_zero h n hs ns).1 hm).1

/-- C13 (`pi_strcasestr` is a case-insensitive `strstr`).  With an empty needle the result
is the haystack itself.  With a non-empty needle: when `i` is the smallest index at which
the needle occurs case-insensitively, the result is the suffix of the haystack starting at
`i`; the result is the null pointer exactly when the needle occurs at no index; and it is
the null pointer when the needle is longer than the haystack. -/
theorem C13_pi_strcasestr_finds_first_occurrence (haystack needle : List Nat) :
    (needle = [] → pi_strcasestr haystack needle = some haystack) ∧
    (needle ≠ [] →
      (∀ i, MatchAt haystack needle i → (∀ j, j < i → ¬ MatchAt haystack needle j) →
        pi_strcasestr haystack needle = some (haystack.drop i)) ∧
      (pi_strcasestr haystack needle = none ↔ ∀ i, ¬ MatchAt haystack needle i) ∧
      (haystack.length < needle.length → pi_strcasestr haystack needle = none)) := by
  refine ⟨?_, ?_⟩
  · rintro rfl
    rfl
  · intro hne
    cases needle with
    | nil => exact absurd rfl hne
    | cons n ns =>
      have hdef : pi_strcasestr haystack (n :: ns) = outerLoop (TOLOWER n) ns haystack := rfl
      rw [hdef]
      have key : (outerLoop (TOLOWER n) ns haystack = none ↔
          ∀ i, ¬ MatchAt haystack (n :: ns) i) := by
        rcases outerLoop_spec n ns haystack with ⟨hn, hall⟩ | ⟨i, hi, hm, _⟩
        · exact ⟨fun _ => hall, fun _ => hn⟩
        · constructor
          · intro h; rw [hi] at h; cases h
          · intro h; exact absurd hm (h i)
      refine ⟨?_, key, ?_⟩
      · intro i hm hmin
        rcases outerLoop_spec n ns haystack with ⟨_, hall⟩ | ⟨i0, hi0, hm0, hmin0⟩
        · exact absurd hm (hall i)
        · have : i = i0 := by
            rcases Nat.lt_trichotomy i i0 with h | h | h
            · exact absurd hm (hmin0 i h)
            · exact h
            · exact absurd hm0 (hmin i0 h)
          rw [this]; exact hi0
      · intro hlen
        rw [key]
        intro i hm
        have := matchAt_length _ _ i hm
        omega

end Utils
